import Mathlib

/-!
Verification of the beneficiary-deduplication worker
(fuzzy matching, blocking, capped union-find clustering, deterministic
splitting, and the post-clustering audit).

Shallow embedding conventions:
* JS strings are modeled as `List Char` (codepoint level; all strings the
  engine manipulates after normalization are BMP-only, where JS UTF-16
  indexing agrees with codepoints).
* JS numbers are modeled as exact rationals.
* The platform Unicode normalizer (NFKC) is an external function; it is a
  parameter of `normalizeArabicRaw` and is instantiated with the identity
  for pipeline runs (`normA`), which agrees with real NFKC on the
  ASCII/Arabic-letter alphabets exercised here.
* Mutable structures (union-find, maps) are modeled by explicit state
  passing; JS `Map`/`Set` insertion order is modeled by association lists
  and first-occurrence deduplication.
-/

namespace BeneficiaryInsight

/-- JS strings as lists of characters. -/
abbrev Str := List Char

/-- Shorthand turning a Lean string literal into the model string type. -/
def str (s : String) : Str := s.data

/-- Last `n` characters, JS `slice(-n)` (whole string when shorter). -/
def lastN (n : Nat) (l : Str) : Str := l.drop (l.length - n)

/-- First-occurrence deduplication with an explicit seen set, the
iteration semantics of a JS `Set`. -/
def dedupSeen {α : Type} [DecidableEq α] : List α → List α → List α
  | _, [] => []
  | seen, x :: xs =>
    if seen.contains x then dedupSeen seen xs
    else x :: dedupSeen (seen ++ [x]) xs

/-- First-occurrence deduplication, the semantics of a JS `Set`. -/
def dedupKeepFirst {α : Type} [DecidableEq α] (l : List α) : List α := dedupSeen [] l

/-- Association-list lookup (JS `Map.get`). -/
def assocOf {κ β : Type} [DecidableEq κ] : List (κ × β) → κ → Option β
  | [], _ => none
  | (k, v) :: rest, k' => if k = k' then some v else assocOf rest k'

/-- Lookup with a default value. -/
def lookupD {κ β : Type} [DecidableEq κ] (l : List (κ × β)) (k : κ) (d : β) : β :=
  (assocOf l k).getD d

/-- JS `Map.set`: update in place when the key exists, else append. -/
def assocSet {κ β : Type} [DecidableEq κ] : List (κ × β) → κ → β → List (κ × β)
  | [], k, v => [(k, v)]
  | (k0, v0) :: rest, k, v =>
    if k0 = k then (k0, v) :: rest else (k0, v0) :: assocSet rest k v

/-- JS `Map.delete`. -/
def assocErase {κ β : Type} [DecidableEq κ] : List (κ × β) → κ → List (κ × β)
  | [], _ => []
  | (k0, v0) :: rest, k =>
    if k0 = k then rest else (k0, v0) :: assocErase rest k

/-- Append a value to the list stored at a key (creating the entry at the
end when absent), the `map.get(k) || []; push; map.set` idiom. -/
def assocAppend {κ β : Type} [DecidableEq κ] (l : List (κ × List β)) (k : κ) (v : β) :
    List (κ × List β) :=
  assocSet l k (lookupD l k [] ++ [v])

/-- All ordered pairs `(l[i], l[j])` with `i < j`, in the nested-loop order
of the source. -/
def pairsOf {α : Type} : List α → List (α × α)
  | [] => []
  | x :: xs => xs.map (fun y => (x, y)) ++ pairsOf xs

/-- Contiguous chunks of size `k` (JS slice loop); `k = 0` would not
terminate in the source, modeled as a single chunk. -/
def chunksOf {α : Type} (k : Nat) : List α → List (List α)
  | [] => []
  | x :: xs =>
    match k with
    | 0 => [x :: xs]
    | k' + 1 => (x :: xs).take (k' + 1) :: chunksOf k ((x :: xs).drop (k' + 1))
termination_by l => l.length
decreasing_by
  simp only [List.length_drop, List.length_cons]
  omega

/-! ## Text normalizer -/

/-- The JS regex whitespace class (also the set trimmed by `trim`). -/
def isJsWs (c : Char) : Bool :=
  c.toNat = 0x20 || c.toNat = 0x09 || c.toNat = 0x0a || c.toNat = 0x0b ||
  c.toNat = 0x0c || c.toNat = 0x0d || c.toNat = 0xa0 || c.toNat = 0x1680 ||
  (0x2000 ≤ c.toNat && c.toNat ≤ 0x200a) ||
  c.toNat = 0x2028 || c.toNat = 0x2029 || c.toNat = 0x202f ||
  c.toNat = 0x205f || c.toNat = 0x3000 || c.toNat = 0xfeff

/-- Arabic diacritic ranges removed by the normalizer. -/
def isDiacritic (c : Char) : Bool :=
  (0x064B ≤ c.toNat && c.toNat ≤ 0x065F) ||
  (0x0610 ≤ c.toNat && c.toNat ≤ 0x061A) ||
  (0x06D6 ≤ c.toNat && c.toNat ≤ 0x06ED)

/-- Arabic letter-variant folding (Alef variants, waw/ya with hamza,
teh marbuta). -/
def foldChar (c : Char) : Char :=
  if c = 'آ' || c = 'أ' || c = 'إ' then 'ا'
  else if c = 'ؤ' then 'و'
  else if c = 'ئ' then 'ي'
  else if c = 'ة' then 'ه'
  else c

/-- Characters kept by the final filter: Arabic block, digits, ASCII
letters, regex whitespace. -/
def isKept (c : Char) : Bool :=
  (0x0600 ≤ c.toNat && c.toNat ≤ 0x06FF) ||
  ('0' ≤ c && c ≤ '9') || ('A' ≤ c && c ≤ 'Z') || ('a' ≤ c && c ≤ 'z') ||
  isJsWs c

/-- Lowercasing; ASCII suffices on the post-filter alphabet (Arabic is
caseless), where it agrees with JS `toLowerCase`. -/
def lowerChar (c : Char) : Char :=
  if 'A' ≤ c && c ≤ 'Z' then Char.ofNat (c.toNat + 32) else c

/-- One character through the strip/fold/filter steps of the normalizer:
diacritics are dropped, variants folded, and non-kept characters become a
space. -/
def filtChar (c : Char) : Option Char :=
  if isDiacritic c then none
  else
    let c2 := foldChar c
    some (if isKept c2 then c2 else ' ')

/-- The three character-local regex replacements applied in sequence. -/
def step123 (l : Str) : Str := l.filterMap filtChar

/-- Split into maximal whitespace-free words (accumulator in reverse). -/
def wordsAux : Str → Str → List Str
  | [], acc => if acc = [] then [] else [acc.reverse]
  | c :: cs, acc =>
    if isJsWs c then
      if acc = [] then wordsAux cs [] else acc.reverse :: wordsAux cs []
    else wordsAux cs (c :: acc)

/-- Words of a string, split on regex whitespace. -/
def wordsOf (l : Str) : List Str := wordsAux l []

/-- Join words with single spaces. -/
def joinSp : List Str → Str
  | [] => []
  | [w] => w
  | w :: ws => w ++ ' ' :: joinSp ws

/-- Whitespace collapsing plus trim: every whitespace run becomes one
space and outer whitespace disappears. -/
def collapseWs (l : Str) : Str := joinSp (wordsOf l)

/-- The character pipeline after NFKC: strip diacritics, fold variants,
filter, collapse whitespace, trim, lowercase. -/
def postNorm (l : Str) : Str := (collapseWs (step123 l)).map lowerChar

/-- The normalizer, parameterized by the platform NFKC implementation. -/
def normalizeArabicRaw (nfkc : Str → Str) (s : Str) : Str := postNorm (nfkc s)

/-- Pipeline instantiation of the normalizer. NFKC is the identity on the
alphabets appearing in this development (NFKC-normal ASCII and Arabic
letters). -/
def normA (s : Str) : Str := normalizeArabicRaw id s

/-- Tokens of a string: words of its normalization. -/
def tokens (s : Str) : List Str := wordsOf (normA s)

/-- Keep only ASCII digits (JS `replace(/\D/g, "")`). -/
def digitsOnly (s : Str) : Str := s.filter (fun c => '0' ≤ c && c ≤ '9')

/-- JS `trim`. -/
def jsTrim (s : Str) : Str :=
  ((s.dropWhile isJsWs).reverse.dropWhile isJsWs).reverse

/-! ## Similarity primitives -/

/-- Scan (with fuel) for the first index `j` below `stop` that is not yet
matched and carries the sought character. -/
def jwScan (ai : Char) (b : Str) (used : List Nat) (stop : Nat) : Nat → Nat → Option Nat
  | _, 0 => none
  | j, fuel + 1 =>
    if j < stop then
      if used.contains j then jwScan ai b used stop (j + 1) fuel
      else if b.getD j ' ' = ai then some j
      else jwScan ai b used stop (j + 1) fuel
    else none

/-- The inner loop of the Jaro matcher: first free matching column in
`[j, stop)`. -/
def jwFindJ (ai : Char) (b : Str) (used : List Nat) (j stop : Nat) : Option Nat :=
  jwScan ai b used stop j (stop - j)

/-- The row loop of the Jaro matcher: rows `i, i+1, ...` (fuel many) are
matched greedily to the smallest free column inside the distance window;
the pair list collects `(i, j)` matches (its second components are the
marked columns of the source). -/
def jwGo (a b : Str) (d : Int) : Nat → Nat → List (Nat × Nat) → List (Nat × Nat)
  | _, 0, ps => ps
  | i, fuel + 1, ps =>
    let lo := (max 0 ((i : Int) - d)).toNat
    let hi := (min ((i : Int) + d + 1) (b.length : Int)).toNat
    match jwFindJ (a.getD i ' ') b (ps.map Prod.snd) lo hi with
    | some j => jwGo a b d (i + 1) fuel (ps ++ [(i, j)])
    | none => jwGo a b d (i + 1) fuel ps

/-- Greedy Jaro matching of all rows. -/
def jwPairs (a b : Str) (d : Int) : List (Nat × Nat) := jwGo a b d 0 a.length []

/-- Length of the common prefix. -/
def commonPrefixLen : Str → Str → Nat
  | a :: as, b :: bs => if a = b then commonPrefixLen as bs + 1 else 0
  | _, _ => 0

/-- Jaro-Winkler similarity as implemented by the worker (and again,
verbatim, by the audit module). -/
def jaroWinkler (s1 s2 : Str) : ℚ :=
  if s1.isEmpty || s2.isEmpty then 0
  else
    let la := s1.length
    let lb := s2.length
    let d : Int := (Int.ofNat (max la lb / 2)) - 1
    let M := jwPairs s1 s2 d
    let m := M.length
    if m = 0 then 0
    else
      let fsts := M.map Prod.fst
      let snds := M.map Prod.snd
      let matchedA := (List.range la).filterMap
        (fun i => if fsts.contains i then some (s1.getD i ' ') else none)
      let matchedB := (List.range lb).filterMap
        (fun j => if snds.contains j then some (s2.getD j ' ') else none)
      let trans2 := (matchedA.zip matchedB).countP (fun p => p.1 ≠ p.2)
      let t : ℚ := (trans2 : ℚ) / 2
      let jaro := ((m : ℚ) / la + (m : ℚ) / lb + ((m : ℚ) - t) / m) / 3
      let pl := commonPrefixLen (s1.take 4) (s2.take 4)
      jaro + (pl : ℚ) * (1 / 10) * (1 - jaro)

/-- Token-set Jaccard similarity. -/
def tokenJaccard (aTokens bTokens : List Str) : ℚ :=
  if aTokens.isEmpty && bTokens.isEmpty then 0
  else
    let A := dedupKeepFirst aTokens
    let B := dedupKeepFirst bTokens
    let inter := A.countP (fun x => B.contains x)
    let uni := (dedupKeepFirst (A ++ B)).length
    if uni = 0 then 0 else (inter : ℚ) / uni

/-- JS default string comparison (lexicographic on code units; all strings
sorted here are BMP so codepoint order coincides). -/
def strLtB : Str → Str → Bool
  | [], [] => false
  | [], _ :: _ => true
  | _ :: _, [] => false
  | a :: as, b :: bs => if a = b then strLtB as bs else decide (a < b)

/-- Insert into an ascending-sorted list of strings. -/
def insertStr (x : Str) : List Str → List Str
  | [] => [x]
  | y :: ys => if strLtB x y then x :: y :: ys else y :: insertStr x ys

/-- JS `Array.prototype.sort` with the default comparator. -/
def sortStrs (l : List Str) : List Str := l.foldr insertStr []

/-- Order-free composite name similarity: 0.7 Jaccard on token sets plus
0.3 Jaro-Winkler on the sorted-token joins. -/
def nameOrderFreeScore (aName bName : Str) : ℚ :=
  let aT := tokens aName
  let bT := tokens bName
  if aT.isEmpty || bT.isEmpty then 0
  else
    let A := dedupKeepFirst aT
    let B := dedupKeepFirst bT
    let inter := A.countP (fun t => B.contains t)
    let uni := (dedupKeepFirst (A ++ B)).length
    let jacc : ℚ := if uni = 0 then 0 else (inter : ℚ) / uni
    let sj := jaroWinkler (joinSp (sortStrs aT)) (joinSp (sortStrs bT))
    (7 / 10) * jacc + (3 / 10) * sj

/-- Name splitting used by the scorer (tokens of the argument). -/
def splitParts (name : Str) : List Str :=
  if name.isEmpty then [] else tokens name

/-- Children-list cleanup; in the pipeline the field is always already an
array of strings (the worker mapping step splits raw strings), so only the
array branch of the source is exercised. -/
def normalizeChildrenField (l : List Str) : List Str :=
  l.filter (fun x => ¬x.isEmpty)

/-! ## Records and configuration -/

/-- An input record row. Besides the seven fields the scorer projects
(plus `id`, the fallback for a blank national id), rows carry the
subdistrict, the precomputed normalized attributes attached by the worker
mapping step, and arbitrary passthrough columns. -/
structure RawRecord where
  womanName : Str := []
  husbandName : Str := []
  nationalId : Str := []
  id : Str := []
  phone : Str := []
  village : Str := []
  subdistrict : Str := []
  children : List Str := []
  womanName_normalized : Str := []
  husbandName_normalized : Str := []
  village_normalized : Str := []
  subdistrict_normalized : Str := []
  children_normalized : List Str := []
  passthrough : List (Str × Str) := []
deriving DecidableEq

/-- The scorer weights (`finalScoreWeights`). -/
structure Weights where
  firstNameScore : ℚ
  familyNameScore : ℚ
  advancedNameScore : ℚ
  tokenReorderScore : ℚ
  husbandScore : ℚ
  idScore : ℚ
  phoneScore : ℚ
  childrenScore : ℚ
  locationScore : ℚ
deriving DecidableEq

/-- Threshold configuration. -/
structure Thresholds where
  minPair : ℚ
  minInternal : ℚ
  blockChunkSize : Nat
deriving DecidableEq

/-- Rule toggles. -/
structure RuleFlags where
  enablePolygamyRules : Bool
deriving DecidableEq

/-- Full configuration; the `Object.assign` defaulting of the source is a
caller-boundary concern, so the model passes fully-populated options. -/
structure Opts where
  finalScoreWeights : Weights
  thresholds : Thresholds
  rules : RuleFlags
deriving DecidableEq

/-- The default configuration of the source. -/
def defaultOpts : Opts :=
  { finalScoreWeights :=
      { firstNameScore := 15 / 100
        familyNameScore := 25 / 100
        advancedNameScore := 12 / 100
        tokenReorderScore := 10 / 100
        husbandScore := 12 / 100
        idScore := 8 / 100
        phoneScore := 5 / 100
        childrenScore := 6 / 100
        locationScore := 4 / 100 }
    thresholds := { minPair := 62 / 100, minInternal := 50 / 100, blockChunkSize := 3000 }
    rules := { enablePolygamyRules := true } }

/-- The local record object the scorer builds from each argument: the
seven projected fields plus normalized attributes. The source never
assigns `subdistrict_normalized` on these objects, so that attribute stays
undefined, modeled as an `Option` fixed to `none`. -/
structure LocalRec where
  womanName : Str
  husbandName : Str
  nationalId : Str
  phone : Str
  village : Str
  subdistrict : Str
  children : List Str
  womanName_normalized : Str
  husbandName_normalized : Str
  village_normalized : Str
  children_normalized : List Str
  subdistrict_normalized : Option Str
deriving DecidableEq

/-- Truthiness of a possibly-undefined string attribute. -/
def truthyOpt : Option Str → Bool
  | none => false
  | some s => ¬s.isEmpty

/-- The national id after string conversion and the id fallback
(`String(raw.nationalId || raw.id || "")`). -/
def effectiveId (r : RawRecord) : Str :=
  if ¬r.nationalId.isEmpty then r.nationalId
  else if ¬r.id.isEmpty then r.id else []

/-- Lines 281-307 of the worker: project and normalize one argument. -/
def localize (r : RawRecord) : LocalRec :=
  let nid := effectiveId r
  { womanName := r.womanName
    husbandName := r.husbandName
    nationalId := nid
    phone := digitsOnly r.phone
    village := r.village
    subdistrict := r.subdistrict
    children := r.children
    womanName_normalized := normA r.womanName
    husbandName_normalized := normA r.husbandName
    village_normalized := normA r.village
    children_normalized := r.children.map normA
    subdistrict_normalized := none }

/-- Component breakdown of the weighted-sum fallback. -/
structure Components where
  firstNameScore : ℚ
  familyNameScore : ℚ
  advancedNameScore : ℚ
  tokenReorderScore : ℚ
  husbandScore : ℚ
  idScore : ℚ
  phoneScore : ℚ
  childrenScore : ℚ
  locationScore : ℚ
deriving DecidableEq

/-- The breakdown object returned by the scorer (one shape per branch). -/
inductive Breakdown where
  | exactId
  | polygamyStrong
  | additionalRule (boostedTo : ℚ)
  | full (c : Components)
deriving DecidableEq

/-- Scorer result. -/
structure ScoreResult where
  score : ℚ
  breakdown : Breakdown
  reasons : List String
deriving DecidableEq

/-- Element at an index with empty-string default (the `getPart` helper). -/
def getPart (arr : List Str) (idx : Nat) : Str := arr.getD idx []

/-- The additional domain rules (token reorder, household+children, and
the lineage rules), in source order; `none` means every rule declined.
The defensive try/catch of the source is dead (no throwing operation in
its body) and is not modeled. -/
def applyAdditionalRules (a b : LocalRec) (o : Opts) : Option (ℚ × List String) :=
  let minPair := o.thresholds.minPair
  let A := splitParts a.womanName_normalized
  let B := splitParts b.womanName_normalized
  let HA := splitParts a.husbandName_normalized
  let HB := splitParts b.husbandName_normalized
  -- RULE 0: strong token match (80%+)
  let setA := dedupKeepFirst A
  let setB := dedupKeepFirst B
  let inter := setA.countP (fun t => setB.contains t)
  let uni := (dedupKeepFirst (setA ++ setB)).length
  let ratio : ℚ := if uni = 0 then 0 else (inter : ℚ) / uni
  if ratio ≥ 8 / 10 then some (min 1 (minPair + 22 / 100), ["TOKEN_REORDER"])
  else
    -- RULE: strong household + children match
    let firstNameMatch := A.length > 0 ∧ B.length > 0 ∧
      jaroWinkler (getPart A 0) (getPart B 0) ≥ 93 / 100
    let husbandStrong :=
      jaroWinkler a.husbandName_normalized b.husbandName_normalized ≥ 9 / 10 ∨
      nameOrderFreeScore a.husbandName_normalized b.husbandName_normalized ≥ 9 / 10
    let childrenMatch := tokenJaccard a.children_normalized b.children_normalized ≥ 9 / 10
    if firstNameMatch ∧ husbandStrong ∧ childrenMatch then
      some (minPair + 25 / 100, ["DUPLICATED_HUSBAND_LINEAGE"])
    else
      let s93 := fun (x y : Str) => jaroWinkler x y ≥ 93 / 100
      let s95 := fun (x y : Str) => jaroWinkler x y ≥ 95 / 100
      let F1 := getPart A 0
      let Fa1 := getPart A 1
      let G1 := getPart A 2
      let L1 := getPart A 3
      let F2 := getPart B 0
      let Fa2 := getPart B 1
      let G2 := getPart B 2
      let L2 := getPart B 3
      let HF1 := getPart HA 0
      let HF2 := getPart HB 0
      if s93 F1 F2 ∧ s93 Fa1 Fa2 ∧ s93 G1 G2 ∧ jaroWinkler L1 L2 < 85 / 100 ∧
          jaroWinkler HF1 HF2 < 7 / 10 then
        some (min 1 (minPair + 18 / 100), ["WOMAN_LINEAGE_MATCH"])
      else if s93 F1 F2 ∧ s93 Fa1 Fa2 ∧ s93 G1 G2 ∧ jaroWinkler L1 L2 ≥ 85 / 100 ∧
          jaroWinkler HF1 HF2 < 7 / 10 then
        some (min 1 (minPair + 18 / 100), ["WOMAN_LINEAGE_MATCH"])
      else if ((A.length = 4 ∧ B.length = 5) ∨ (A.length = 5 ∧ B.length = 4)) ∧
          s93 F1 F2 ∧ s93 Fa1 Fa2 ∧ s93 G1 G2 ∧ s93 L1 L2 ∧
          jaroWinkler HF1 HF2 < 7 / 10 then
        some (min 1 (minPair + 17 / 100), ["WOMAN_LINEAGE_MATCH"])
      else if ((A.length = 4 ∧ B.length = 5) ∨ (A.length = 5 ∧ B.length = 4)) ∧
          s95 F1 F2 ∧ s93 L1 L2 ∧ s95 HF1 HF2 ∧ s93 Fa1 Fa2 ∧ ¬s93 G1 G2 then
        some (min 1 (minPair + 2 / 10), ["DUPLICATED_HUSBAND_LINEAGE"])
      else if A.length ≥ 3 ∧ B.length ≥ 3 ∧ HA.length ≥ 3 ∧ HB.length ≥ 3 ∧
          (jaroWinkler (getPart A 1) (getPart B 1) ≥ 93 / 100 ∧
           jaroWinkler (getPart A 2) (getPart B 2) ≥ 93 / 100 ∧
           jaroWinkler (getPart A (A.length - 1)) (getPart B (B.length - 1)) ≥ 9 / 10) ∧
          (jaroWinkler (getPart HA 0) (getPart HB 0) ≥ 93 / 100 ∧
           jaroWinkler (getPart HA 1) (getPart HB 1) ≥ 93 / 100 ∧
           jaroWinkler (getPart HA 2) (getPart HB 2) ≥ 93 / 100 ∧
           jaroWinkler (getPart HA (HA.length - 1)) (getPart HB (HB.length - 1)) ≥ 9 / 10) ∧
          (jaroWinkler (getPart A 0) (getPart B 0) ≥ 55 / 100 ∨
           jaroWinkler (getPart A 0) (getPart B 0) = 0) then
        some (min 1 (minPair + 23 / 100), ["DUPLICATED_HUSBAND_LINEAGE"])
      else none

/-- The scorer on already-localized records (everything in `pairwiseScore`
after building the local objects): exact-id short circuit, polygamy rule,
additional rules, then the weighted-sum fallback. -/
def pairwiseScoreLocal (a b : LocalRec) (o : Opts) : ScoreResult :=
  if ¬a.nationalId.isEmpty ∧ ¬b.nationalId.isEmpty ∧ a.nationalId = b.nationalId then
    { score := 99 / 100, breakdown := .exactId, reasons := ["EXACT_ID"] }
  else
    let husbandJW := jaroWinkler a.husbandName_normalized b.husbandName_normalized
    let aParts := splitParts a.womanName_normalized
    let bParts := splitParts b.womanName_normalized
    let aFather := getPart aParts 1
    let bFather := getPart bParts 1
    let aGrand := getPart aParts 2
    let bGrand := getPart bParts 2
    if o.rules.enablePolygamyRules ∧ husbandJW ≥ 95 / 100 ∧
        jaroWinkler aFather bFather ≥ 93 / 100 ∧ jaroWinkler aGrand bGrand ≥ 9 / 10 then
      { score := 97 / 100, breakdown := .polygamyStrong, reasons := ["POLYGAMY_PATTERN"] }
    else
      match applyAdditionalRules a b o with
      | some (rScore, rReasons) =>
        { score := min 1 rScore, breakdown := .additionalRule rScore, reasons := rReasons }
      | none =>
        let A := splitParts a.womanName_normalized
        let B := splitParts b.womanName_normalized
        let firstA := getPart A 0
        let firstB := getPart B 0
        let famA := joinSp (A.drop 1)
        let famB := joinSp (B.drop 1)
        let firstNameScore := jaroWinkler firstA firstB
        let familyNameScore := jaroWinkler famA famB
        let rootA := joinSp ((splitParts a.womanName_normalized).map (fun t => t.take 3))
        let rootB := joinSp ((splitParts b.womanName_normalized).map (fun t => t.take 3))
        let advancedNameScore : ℚ :=
          if rootA.isEmpty ∨ rootB.isEmpty then 0 else min (1 / 2) (jaroWinkler rootA rootB)
        let tokenReorderScore := nameOrderFreeScore a.womanName_normalized b.womanName_normalized
        let husbandScore := max (jaroWinkler a.husbandName_normalized b.husbandName_normalized)
          (nameOrderFreeScore a.husbandName_normalized b.husbandName_normalized)
        let phoneScoreVal : ℚ :=
          if ¬a.phone.isEmpty ∧ ¬b.phone.isEmpty then
            if a.phone = b.phone then 1
            else if lastN 6 a.phone = lastN 6 b.phone then 85 / 100
            else if lastN 4 a.phone = lastN 4 b.phone then 6 / 10
            else 0
          else 0
        let idScore : ℚ :=
          if ¬a.nationalId.isEmpty ∧ ¬b.nationalId.isEmpty then
            if a.nationalId = b.nationalId then 1
            else if lastN 5 a.nationalId = lastN 5 b.nationalId then 75 / 100
            else 0
          else 0
        let childrenScore := tokenJaccard a.children_normalized b.children_normalized
        let loc0 : ℚ :=
          if ¬a.village_normalized.isEmpty ∧ ¬b.village_normalized.isEmpty ∧
              a.village_normalized = b.village_normalized then 4 / 10 else 0
        let loc1 : ℚ := loc0 +
          (if truthyOpt a.subdistrict_normalized ∧ truthyOpt b.subdistrict_normalized ∧
              a.subdistrict_normalized = b.subdistrict_normalized then 25 / 100 else 0)
        let locationScore := min (1 / 2) loc1
        let W := o.finalScoreWeights
        let score0 :=
          W.firstNameScore * firstNameScore + W.familyNameScore * familyNameScore +
          W.advancedNameScore * advancedNameScore + W.tokenReorderScore * tokenReorderScore +
          W.husbandScore * husbandScore + W.idScore * idScore + W.phoneScore * phoneScoreVal +
          W.childrenScore * childrenScore + W.locationScore * locationScore
        let strongParts :=
          ([firstNameScore, familyNameScore, tokenReorderScore].filter (fun v => v ≥ 85 / 100)).length
        let score1 := if strongParts ≥ 2 then min 1 (score0 + 4 / 100) else score0
        let score := max 0 (min 1 score1)
        let reasons := if tokenReorderScore > 85 / 100 then ["TOKEN_REORDER"] else []
        { score := score
          breakdown := .full
            { firstNameScore := firstNameScore
              familyNameScore := familyNameScore
              advancedNameScore := advancedNameScore
              tokenReorderScore := tokenReorderScore
              husbandScore := husbandScore
              idScore := idScore
              phoneScore := phoneScoreVal
              childrenScore := childrenScore
              locationScore := locationScore }
          reasons := reasons }

/-- The pairwise scorer: build the two local records, then score. -/
def pairwiseScore (aRaw bRaw : RawRecord) (o : Opts) : ScoreResult :=
  pairwiseScoreLocal (localize aRaw) (localize bRaw) o

/-! ## Blocking and edge building -/

instance : Inhabited RawRecord := ⟨{}⟩

/-- A scored candidate pair of record indices. -/
structure Edge where
  a : Nat
  b : Nat
  score : ℚ
  reasons : List String
deriving DecidableEq

/-- Blocking index: each record lands in every bucket named by its
non-empty keys (name prefixes, id/phone suffixes, village prefix), with a
sentinel bucket when no key applies; buckets are returned in key
insertion order. -/
def buildBlocks (rows : List RawRecord) : List (List Nat) :=
  (rows.enum.foldl (fun blocks p =>
    let i := p.1
    let r := p.2
    let wTokens := splitParts r.womanName_normalized
    let hTokens := splitParts r.husbandName_normalized
    let wFirst := (getPart wTokens 0).take 3
    let hFirst := (getPart hTokens 0).take 3
    let idLast4 := lastN 4 (digitsOnly r.nationalId)
    let phoneLast4 := lastN 4 (digitsOnly r.phone)
    let village := r.village_normalized.take 6
    let k1 : List Str :=
      if ¬wFirst.isEmpty ∧ ¬hFirst.isEmpty ∧ ¬idLast4.isEmpty ∧ ¬phoneLast4.isEmpty then
        [str "full:" ++ wFirst ++ str ":" ++ hFirst ++ str ":" ++ idLast4 ++ str ":" ++ phoneLast4]
      else []
    let k2 := if ¬wFirst.isEmpty ∧ ¬phoneLast4.isEmpty then
        [str "wp:" ++ wFirst ++ str ":" ++ phoneLast4] else []
    let k3 := if ¬wFirst.isEmpty ∧ ¬idLast4.isEmpty then
        [str "wi:" ++ wFirst ++ str ":" ++ idLast4] else []
    let k4 := if ¬wFirst.isEmpty ∧ ¬hFirst.isEmpty then
        [str "wh:" ++ wFirst ++ str ":" ++ hFirst] else []
    let k5 := if ¬hFirst.isEmpty then [str "h:" ++ hFirst] else []
    let k6 := if ¬wFirst.isEmpty then [str "w:" ++ wFirst] else []
    let k7 := if ¬village.isEmpty then [str "v:" ++ village] else []
    let keys0 := dedupKeepFirst (k1 ++ k2 ++ k3 ++ k4 ++ k5 ++ k6 ++ k7)
    let keys := if keys0.isEmpty then [str "blk:all"] else keys0
    keys.foldl (fun bl k => assocAppend bl k i) blocks) []).map Prod.snd

/-- Normalized unordered pair key for the seen set. -/
def pairKey (a b : Nat) : Nat × Nat := if a < b then (a, b) else (b, a)

/-- Score all unordered index pairs of one bucket, skipping pairs already
seen, and keep those meeting the threshold. -/
def pushEdgesForList (lst : List Nat) (rows : List RawRecord) (minScore : ℚ) (o : Opts)
    (st : List (Nat × Nat) × List Edge) : List (Nat × Nat) × List Edge :=
  (pairsOf lst).foldl (fun st p =>
    let key := pairKey p.1 p.2
    if st.1.contains key then st
    else
      let seen := st.1 ++ [key]
      let result := pairwiseScore (rows.getD p.1 default) (rows.getD p.2 default) o
      if result.score ≥ minScore then
        (seen, st.2 ++ [{ a := p.1, b := p.2, score := result.score, reasons := result.reasons }])
      else (seen, st.2)) st

/-- Insert into a list sorted by nonincreasing score, after every element
of greater-or-equal score (so equal scores keep arrival order, matching
the stability of the JS sort). -/
def insertByScoreDesc {α : Type} (sc : α → ℚ) (e : α) : List α → List α
  | [] => [e]
  | x :: xs => if sc x ≥ sc e then x :: insertByScoreDesc sc e xs else e :: x :: xs

/-- Stable sort by descending score (JS `sort((x, y) => y.score - x.score)`). -/
def sortByScoreDesc {α : Type} (sc : α → ℚ) (l : List α) : List α :=
  l.foldl (fun acc e => insertByScoreDesc sc e acc) []

/-- Build all candidate edges from the blocking index (with bucket
chunking) and sort them by descending score. -/
def buildEdges (rows : List RawRecord) (minScore : ℚ) (o : Opts) : List Edge :=
  let blocks := buildBlocks rows
  let chunk := o.thresholds.blockChunkSize
  let st := blocks.foldl (fun st block =>
    if block.length > chunk then
      (chunksOf chunk block).foldl (fun st part => pushEdgesForList part rows minScore o st) st
    else pushEdgesForList block rows minScore o st)
    (([], []) : List (Nat × Nat) × List Edge)
  sortByScoreDesc (fun e => e.score) st.2

/-- The consumption order the spec asserts for consecutive edges: strictly
descending score, ties broken by ascending (a, b) index pair. -/
def specEdgeOrder (e f : Edge) : Prop :=
  f.score < e.score ∨ (e.score = f.score ∧ (e.a < f.a ∨ (e.a = f.a ∧ e.b < f.b)))

instance (e f : Edge) : Decidable (specEdgeOrder e f) := by
  unfold specEdgeOrder; infer_instance

/-! ## Union-find

The source union-find uses path compression, which only affects lookup
cost; the model stores the root of every element directly (`root`), so
`find` is a plain lookup and `merge` redirects the loser root. `size`
and the insertion-ordered per-root `members` map follow the source. -/

/-- Union-find state. -/
structure UF where
  root : List Nat
  size : List Nat
  members : List (Nat × List Nat)
deriving DecidableEq

/-- Fresh union-find over `n` singleton elements. -/
def UF.init (n : Nat) : UF :=
  { root := List.range n
    size := List.replicate n 1
    members := (List.range n).map (fun i => (i, [i])) }

/-- Root of an element. -/
def UF.find (uf : UF) (x : Nat) : Nat := uf.root.getD x x

/-- Merge (union by size): the smaller root is redirected to the larger
one (first argument wins ties); returns the new state and the surviving
root. -/
def UF.mergeRoots (uf : UF) (a0 b0 : Nat) : UF × Nat :=
  let a1 := uf.find a0
  let b1 := uf.find b0
  if a1 = b1 then (uf, a1)
  else
    let sw := uf.size.getD a1 0 < uf.size.getD b1 0
    let a := if sw then b1 else a1
    let b := if sw then a1 else b1
    let root2 := uf.root.map (fun r => if r = b then a else r)
    let size2 := uf.size.set a (uf.size.getD a 0 + uf.size.getD b 0)
    let ma := lookupD uf.members a []
    let mb := lookupD uf.members b []
    let members2 := assocErase (assocSet uf.members a (ma ++ mb)) b
    ({ root := root2, size := size2, members := members2 }, a)

/-- Members of the component of `x`, in accumulation order. -/
def UF.rootMembers (uf : UF) (x : Nat) : List Nat := lookupD uf.members (uf.find x) []

/-- One iteration of the splitter edge loop: merge the endpoint roots
only when the combined component would have at most 4 members. -/
def capStep (uf : UF) (e : Nat × Nat) : UF :=
  let ra := uf.find e.1
  let rb := uf.find e.2
  if ra = rb then uf
  else if uf.size.getD ra 0 + uf.size.getD rb 0 ≤ 4 then (uf.mergeRoots ra rb).1
  else uf

/-- The splitter edge loop. -/
def capMergeAll (uf : UF) (edges : List (Nat × Nat)) : UF :=
  edges.foldl capStep uf

/-- Accumulate a list into key groups in first-occurrence order (the JS
`Map` grouping idiom). -/
def groupAux {κ β : Type} [DecidableEq κ] (key : β → κ) :
    List (κ × List β) → List β → List (κ × List β)
  | acc, [] => acc
  | acc, x :: xs => groupAux key (assocAppend acc (key x) x) xs

/-- Group a list by a key, keys in first-occurrence order, each group in
original order. -/
def groupByKey {κ β : Type} [DecidableEq κ] (key : β → κ) (l : List β) : List (κ × List β) :=
  groupAux key [] l

/-- The groups of a union-find state over elements `0..n-1`, in
first-occurrence order of their roots. -/
def groupsOf (uf : UF) (n : Nat) : List (List Nat) :=
  (groupByKey (fun i => uf.find i) (List.range n)).map Prod.snd

/-- Number of elements below `n` whose root is `r`. -/
def rootCount (uf : UF) (n r : Nat) : Nat :=
  ((List.range n).filter (fun i => uf.find i = r)).length

/-- Well-formedness of a union-find state over `n` elements under the
4-cap merge policy: roots are fixpoints below `n`, and every root size
both equals its component count and is at most 4. -/
structure UF.WF (uf : UF) (n : Nat) : Prop where
  rootLen : uf.root.length = n
  sizeLen : uf.size.length = n
  findLt : ∀ x, x < n → uf.find x < n
  findIdem : ∀ x, x < n → uf.find (uf.find x) = uf.find x
  sizeEq : ∀ r, r < n → uf.find r = r → uf.size.getD r 0 = rootCount uf n r
  sizeLe : ∀ r, r < n → uf.find r = r → uf.size.getD r 0 ≤ 4

/-! Basic `getD` facts, proved directly to keep the development
self-contained. -/

theorem getD_oob {α : Type} : ∀ (l : List α) (i : Nat) (d : α), l.length ≤ i → l.getD i d = d
  | [], _, _, _ => rfl
  | _ :: l, i + 1, d, h => getD_oob l i d (Nat.le_of_succ_le_succ h)
  | _ :: _, 0, _, h => absurd h (by simp)

theorem getD_map_lt {α β : Type} (f : α → β) :
    ∀ (l : List α) (i : Nat) (d : β) (d' : α), i < l.length →
      (l.map f).getD i d = f (l.getD i d')
  | _ :: _, 0, _, _, _ => rfl
  | _ :: l, i + 1, d, d', h => getD_map_lt f l i d d' (Nat.lt_of_succ_lt_succ h)
  | [], i, _, _, h => absurd h (by simp)

theorem getD_set_self {α : Type} :
    ∀ (l : List α) (i : Nat) (v d : α), i < l.length → (l.set i v).getD i d = v
  | _ :: _, 0, _, _, _ => rfl
  | _ :: l, i + 1, v, d, h => getD_set_self l i v d (Nat.lt_of_succ_lt_succ h)
  | [], i, _, _, h => absurd h (by simp)

theorem getD_set_ne {α : Type} :
    ∀ (l : List α) (i j : Nat) (v d : α), j ≠ i → (l.set i v).getD j d = l.getD j d
  | [], _, _, _, _, _ => rfl
  | _ :: _, 0, 0, _, _, h => absurd rfl h
  | _ :: _, 0, _ + 1, _, _, _ => rfl
  | _ :: _, _ + 1, 0, _, _, _ => rfl
  | _ :: l, i + 1, j + 1, v, d, h =>
    getD_set_ne l i j v d (fun hji => h (congrArg Nat.succ hji))

theorem getD_range : ∀ (n i : Nat) (d : Nat), i < n → (List.range n).getD i d = i := by
  intro n i d h
  rw [List.getD_eq_getElem?_getD, List.getElem?_range h]
  rfl

theorem getD_replicate {α : Type} :
    ∀ (n i : Nat) (v d : α), i < n → (List.replicate n v).getD i d = v
  | n + 1, 0, _, _, _ => rfl
  | n + 1, i + 1, v, d, h => getD_replicate n i v d (Nat.lt_of_succ_lt_succ h)
  | 0, i, _, _, h => absurd h (by simp)

/-- A disjoint-or split for `countP`. -/
theorem countP_or_disjoint {α : Type} (p q : α → Bool) :
    ∀ l : List α, (∀ x ∈ l, ¬(p x = true ∧ q x = true)) →
      l.countP (fun x => p x || q x) = l.countP p + l.countP q := by
  intro l
  induction l with
  | nil => intro _; rfl
  | cons a l ih =>
    intro h
    have hd := h a (by simp)
    have ht := ih (fun x hx => h x (by simp [hx]))
    simp only [List.countP_cons, ht]
    cases hp : p a <;> cases hq : q a <;> simp_all <;> omega

theorem countP_congr_list {α : Type} (p q : α → Bool) :
    ∀ l : List α, (∀ x ∈ l, p x = q x) → l.countP p = l.countP q := by
  intro l
  induction l with
  | nil => intro _; rfl
  | cons a l ih =>
    intro h
    simp only [List.countP_cons, ih (fun x hx => h x (by simp [hx])), h a (by simp)]

/-! Union-find facts. -/

theorem UF.find_oob (uf : UF) (n : Nat) (hl : uf.root.length = n) (x : Nat) (h : n ≤ x) :
    uf.find x = x := by
  unfold UF.find
  exact getD_oob _ _ _ (hl ▸ h)

theorem UF.find_fix (uf : UF) (n : Nat) (wf : uf.WF n) (x : Nat) :
    uf.find (uf.find x) = uf.find x := by
  by_cases h : x < n
  · exact wf.findIdem x h
  · have h2 := uf.find_oob n wf.rootLen x (Nat.le_of_not_lt h)
    rw [h2, h2]

theorem rootCount_oob (uf : UF) (n : Nat) (wf : uf.WF n) (r : Nat) (h : n ≤ r) :
    rootCount uf n r = 0 := by
  unfold rootCount
  rw [List.length_eq_zero]
  rw [List.filter_eq_nil_iff]
  intro i hi
  have hi' : i < n := List.mem_range.1 hi
  have := wf.findLt i hi'
  simp only [decide_eq_true_eq]
  omega

theorem size_oob (uf : UF) (n : Nat) (wf : uf.WF n) (r : Nat) (h : n ≤ r) :
    uf.size.getD r 0 = 0 :=
  getD_oob _ _ _ (wf.sizeLen ▸ h)

theorem size_pos_of_root (uf : UF) (n : Nat) (wf : uf.WF n) (r : Nat) (hr : r < n)
    (hfix : uf.find r = r) : 1 ≤ uf.size.getD r 0 := by
  rw [wf.sizeEq r hr hfix]
  unfold rootCount
  have : r ∈ (List.range n).filter (fun i => uf.find i = r) := by
    rw [List.mem_filter]
    exact ⟨List.mem_range.2 hr, by simp [hfix]⟩
  calc 1 ≤ 1 := le_refl 1
    _ ≤ _ := List.length_pos.2 (fun he => by rw [he] at this; exact absurd this (List.not_mem_nil r))

/-- A duplicate-free list containing `r` has exactly one element equal to
`r`. -/
theorem filter_eq_singleton_len (r : Nat) :
    ∀ l : List Nat, l.Nodup → r ∈ l → (l.filter (fun i => i = r)).length = 1 := by
  intro l
  induction l with
  | nil => intro _ hmem; exact absurd hmem (List.not_mem_nil r)
  | cons a l ih =>
    intro hnd hmem
    by_cases ha : a = r
    · subst ha
      have hnotin : a ∉ l := (List.nodup_cons.1 hnd).1
      have hfl : l.filter (fun i => i = a) = [] := by
        rw [List.filter_eq_nil_iff]
        intro x hx
        simp only [decide_eq_true_eq]
        intro hxa
        exact hnotin (hxa ▸ hx)
      simp [List.filter_cons, hfl]
    · have hmem' : r ∈ l := by
        cases List.mem_cons.1 hmem with
        | inl h => exact absurd h.symm ha
        | inr h => exact h
      have hrec := ih (List.nodup_cons.1 hnd).2 hmem'
      simp only [List.filter_cons, decide_eq_true_eq]
      rw [if_neg ha]
      exact hrec

/-- Well-formedness of the initial union-find. -/
theorem UF.wf_init (n : Nat) : (UF.init n).WF n := by
  have hfind : ∀ x, (UF.init n).find x = x := by
    intro x
    by_cases h : x < n
    · unfold UF.find UF.init
      simp only
      exact getD_range n x x h
    · exact (UF.init n).find_oob n (by simp [UF.init]) x (Nat.le_of_not_lt h)
  have hcount : ∀ r, r < n → rootCount (UF.init n) n r = 1 := by
    intro r hr
    unfold rootCount
    have hflt : (List.range n).filter (fun i => (UF.init n).find i = r) =
        (List.range n).filter (fun i => i = r) := by
      apply List.filter_congr
      intro i _
      simp [hfind i]
    rw [hflt]
    exact filter_eq_singleton_len r (List.range n) (List.nodup_range n) (List.mem_range.2 hr)
  refine ⟨by simp [UF.init], by simp [UF.init], ?_, ?_, ?_, ?_⟩
  · intro x hx; rw [hfind x]; exact hx
  · intro x _; rw [hfind x, hfind x]
  · intro r hr _
    rw [hcount r hr]
    unfold UF.init
    simp only
    exact getD_replicate n r 1 0 hr
  · intro r hr _
    unfold UF.init
    simp only
    rw [getD_replicate n r 1 0 hr]
    omega

/-- Core preservation lemma: redirecting root `b` onto root `a` under the
4-cap guard and the union-by-size discipline keeps the state well formed
(the members map is irrelevant to well-formedness). -/
theorem UF.wf_redirect (uf : UF) (n : Nat) (wf : uf.WF n) (a b : Nat)
    (M : List (Nat × List Nat))
    (hfa : uf.find a = a) (hfb : uf.find b = b) (hne : a ≠ b)
    (hcap : uf.size.getD a 0 + uf.size.getD b 0 ≤ 4)
    (hwin : uf.size.getD b 0 ≤ uf.size.getD a 0) :
    UF.WF { root := uf.root.map (fun r => if r = b then a else r),
            size := uf.size.set a (uf.size.getD a 0 + uf.size.getD b 0),
            members := M } n := by
  set m : UF := { root := uf.root.map (fun r => if r = b then a else r),
                  size := uf.size.set a (uf.size.getD a 0 + uf.size.getD b 0),
                  members := M } with hm
  have hrootLen : m.root.length = n := by simp [hm, wf.rootLen]
  have hsizeLen : m.size.length = n := by simp [hm, wf.sizeLen]
  have hfind : ∀ x, x < n → m.find x = (if uf.find x = b then a else uf.find x) := by
    intro x hx
    show m.root.getD x x = _
    have hx' : x < uf.root.length := wf.rootLen ▸ hx
    simp only [hm]
    exact getD_map_lt _ uf.root x x x hx'
  have hab : b < n → a < n := by
    intro hbn
    by_contra han
    have h0 : uf.size.getD a 0 = 0 := size_oob uf n wf a (Nat.le_of_not_lt han)
    have h1 : 1 ≤ uf.size.getD b 0 := size_pos_of_root uf n wf b hbn hfb
    omega
  have hfindm : ∀ x, x < n → m.find x = a ∨ (m.find x = uf.find x ∧ uf.find x ≠ b) := by
    intro x hx
    rw [hfind x hx]
    by_cases hc : uf.find x = b
    · left; rw [if_pos hc]
    · right; rw [if_neg hc]; exact ⟨rfl, hc⟩
  -- characterize the roots of m
  have hroots : ∀ r, r < n → m.find r = r → r ≠ a → (uf.find r = r ∧ r ≠ b) := by
    intro r hr hfix hra
    rw [hfind r hr] at hfix
    by_cases hc : uf.find r = b
    · rw [if_pos hc] at hfix
      exact absurd hfix.symm hra
    · rw [if_neg hc] at hfix
      exact ⟨hfix, fun hrb => hc (hrb ▸ hfix)⟩
  have hcount_a : a < n → rootCount m n a = rootCount uf n a + rootCount uf n b := by
    intro _
    unfold rootCount
    rw [← List.countP_eq_length_filter, ← List.countP_eq_length_filter,
      ← List.countP_eq_length_filter]
    have hsplit := countP_or_disjoint (fun i => decide (uf.find i = a))
      (fun i => decide (uf.find i = b)) (List.range n)
      (by
        intro x _ hx
        simp only [decide_eq_true_eq] at hx
        exact hne (by rw [← hx.1, hx.2]))
    rw [← hsplit]
    apply countP_congr_list
    intro i hi
    have hi' : i < n := List.mem_range.1 hi
    rw [hfind i hi']
    by_cases hc : uf.find i = b
    · simp [hc]
    · simp [hc]
  have hcount_other : ∀ r, r ≠ a → r ≠ b → rootCount m n r = rootCount uf n r := by
    intro r hra hrb
    unfold rootCount
    rw [← List.countP_eq_length_filter, ← List.countP_eq_length_filter]
    apply countP_congr_list
    intro i hi
    have hi' : i < n := List.mem_range.1 hi
    rw [hfind i hi']
    by_cases hc : uf.find i = b
    · rw [if_pos hc, decide_eq_decide]
      constructor
      · intro h; exact absurd h.symm hra
      · intro h; rw [hc] at h; exact absurd h.symm hrb
    · rw [if_neg hc]
  have hsize_a : a < n → m.size.getD a 0 = uf.size.getD a 0 + uf.size.getD b 0 := by
    intro han
    simp only [hm]
    exact getD_set_self _ _ _ _ (wf.sizeLen ▸ han)
  have hsize_other : ∀ r, r ≠ a → m.size.getD r 0 = uf.size.getD r 0 := by
    intro r hra
    simp only [hm]
    exact getD_set_ne _ _ _ _ _ hra
  have hcount_b_eq : rootCount uf n b = uf.size.getD b 0 := by
    by_cases hbn : b < n
    · exact (wf.sizeEq b hbn hfb).symm
    · rw [rootCount_oob uf n wf b (Nat.le_of_not_lt hbn),
        size_oob uf n wf b (Nat.le_of_not_lt hbn)]
  refine ⟨hrootLen, hsizeLen, ?_, ?_, ?_, ?_⟩
  · -- findLt
    intro x hx
    cases hfindm x hx with
    | inl h =>
      rw [h]
      rw [hfind x hx] at h
      by_cases hc : uf.find x = b
      · exact hab (hc ▸ wf.findLt x hx)
      · rw [if_neg hc] at h
        exact h ▸ wf.findLt x hx
    | inr h => rw [h.1]; exact wf.findLt x hx
  · -- findIdem
    intro x hx
    cases hfindm x hx with
    | inl h =>
      rw [h]
      by_cases han : a < n
      · rw [hfind a han, hfa, if_neg hne]
      · show m.root.getD a a = a
        exact getD_oob _ _ _ (hrootLen ▸ Nat.le_of_not_lt han)
    | inr h =>
      rw [h.1, hfind (uf.find x) (wf.findLt x hx), wf.findIdem x hx, if_neg h.2]
  · -- sizeEq
    intro r hr hfix
    by_cases hra : r = a
    · subst hra
      rw [hsize_a hr, hcount_a hr, wf.sizeEq r hr hfa, hcount_b_eq]
    · have hor := hroots r hr hfix hra
      rw [hsize_other r hra, hcount_other r hra hor.2]
      exact wf.sizeEq r hr hor.1
  · -- sizeLe
    intro r hr hfix
    by_cases hra : r = a
    · subst hra
      rw [hsize_a hr]
      exact hcap
    · have hor := hroots r hr hfix hra
      rw [hsize_other r hra]
      exact wf.sizeLe r hr hor.1

/-- Merging two distinct roots under the cap guard preserves
well-formedness. -/
theorem UF.wf_mergeRoots (uf : UF) (n : Nat) (wf : uf.WF n) (ra rb : Nat)
    (hra : uf.find ra = ra) (hrb : uf.find rb = rb) (hne : ra ≠ rb)
    (hcap : uf.size.getD ra 0 + uf.size.getD rb 0 ≤ 4) :
    ((uf.mergeRoots ra rb).1).WF n := by
  unfold UF.mergeRoots
  simp only [hra, hrb, if_neg hne]
  by_cases hsw : uf.size.getD ra 0 < uf.size.getD rb 0
  · simp only [if_pos hsw]
    exact uf.wf_redirect n wf rb ra _ hrb hra (Ne.symm hne)
      (by omega) (Nat.le_of_lt hsw)
  · simp only [if_neg hsw]
    exact uf.wf_redirect n wf ra rb _ hra hrb hne hcap (Nat.le_of_not_lt hsw)

/-- One capped merge step preserves well-formedness. -/
theorem UF.wf_capStep (uf : UF) (n : Nat) (wf : uf.WF n) (e : Nat × Nat) :
    (capStep uf e).WF n := by
  show (if uf.find e.1 = uf.find e.2 then uf
    else if uf.size.getD (uf.find e.1) 0 + uf.size.getD (uf.find e.2) 0 ≤ 4 then
      (uf.mergeRoots (uf.find e.1) (uf.find e.2)).1
    else uf).WF n
  by_cases h1 : uf.find e.1 = uf.find e.2
  · rw [if_pos h1]; exact wf
  · rw [if_neg h1]
    by_cases h2 : uf.size.getD (uf.find e.1) 0 + uf.size.getD (uf.find e.2) 0 ≤ 4
    · rw [if_pos h2]
      exact uf.wf_mergeRoots n wf _ _ (uf.find_fix n wf e.1) (uf.find_fix n wf e.2) h1 h2
    · rw [if_neg h2]; exact wf

/-- The whole capped merge loop preserves well-formedness. -/
theorem UF.wf_capMergeAll (uf : UF) (n : Nat) (wf : uf.WF n) (edges : List (Nat × Nat)) :
    (capMergeAll uf edges).WF n := by
  induction edges generalizing uf with
  | nil => exact wf
  | cons e rest ih =>
    show (List.foldl capStep uf (e :: rest)).WF n
    rw [List.foldl_cons]
    exact ih (capStep uf e) (uf.wf_capStep n wf e)

/-! Characterization of `groupByKey`: each stored group is exactly the
filter of the input at its key. -/

theorem assocOf_assocSet_self {κ β : Type} [DecidableEq κ] (l : List (κ × β)) (k : κ) (v : β) :
    assocOf (assocSet l k v) k = some v := by
  induction l with
  | nil => simp [assocSet, assocOf]
  | cons p rest ih =>
    by_cases h : p.1 = k
    · simp [assocSet, assocOf, h]
    · simp only [assocSet, assocOf, if_neg h]
      exact ih

theorem assocOf_assocSet_ne {κ β : Type} [DecidableEq κ] (l : List (κ × β)) (k k' : κ) (v : β)
    (h : k' ≠ k) : assocOf (assocSet l k' v) k = assocOf l k := by
  induction l with
  | nil => simp [assocSet, assocOf, h]
  | cons p rest ih =>
    by_cases hp : p.1 = k'
    · simp only [assocSet, assocOf, if_pos hp]
      rw [if_neg (hp ▸ h), if_neg (hp ▸ h)]
    · simp only [assocSet, assocOf, if_neg hp]
      by_cases hpk : p.1 = k
      · rw [if_pos hpk, if_pos hpk]
      · rw [if_neg hpk, if_neg hpk]
        exact ih

theorem assocOf_groupAux_some {κ β : Type} [DecidableEq κ] (key : β → κ) (k : κ) :
    ∀ (l : List β) (acc : List (κ × List β)) (g : List β),
      assocOf acc k = some g →
      assocOf (groupAux key acc l) k = some (g ++ l.filter (fun x => key x = k)) := by
  intro l
  induction l with
  | nil => intro acc g h; simpa [groupAux] using h
  | cons x xs ih =>
    intro acc g h
    show assocOf (groupAux key (assocAppend acc (key x) x) xs) k = _
    by_cases hk : key x = k
    · have hset : assocOf (assocAppend acc (key x) x) k = some (g ++ [x]) := by
        unfold assocAppend lookupD
        rw [hk, h]
        simpa using assocOf_assocSet_self acc k (g ++ [x])
      have := ih (assocAppend acc (key x) x) (g ++ [x]) hset
      rw [this]
      simp [List.filter_cons, hk]
    · have hset : assocOf (assocAppend acc (key x) x) k = some g := by
        unfold assocAppend
        rw [assocOf_assocSet_ne _ _ _ _ hk]
        exact h
      have := ih (assocAppend acc (key x) x) g hset
      rw [this]
      simp [List.filter_cons, hk]

theorem assocOf_groupAux_none {κ β : Type} [DecidableEq κ] (key : β → κ) (k : κ) :
    ∀ (l : List β) (acc : List (κ × List β)),
      assocOf acc k = none →
      assocOf (groupAux key acc l) k =
        (if (l.filter (fun x => key x = k)).isEmpty then none
         else some (l.filter (fun x => key x = k))) := by
  intro l
  induction l with
  | nil => intro acc h; simpa [groupAux] using h
  | cons x xs ih =>
    intro acc h
    show assocOf (groupAux key (assocAppend acc (key x) x) xs) k = _
    by_cases hk : key x = k
    · have hset : assocOf (assocAppend acc (key x) x) k = some [x] := by
        unfold assocAppend lookupD
        rw [hk, h]
        simpa using assocOf_assocSet_self acc k [x]
      have := assocOf_groupAux_some key k xs (assocAppend acc (key x) x) [x] hset
      rw [this]
      simp [List.filter_cons, hk]
    · have hset : assocOf (assocAppend acc (key x) x) k = none := by
        unfold assocAppend
        rw [assocOf_assocSet_ne _ _ _ _ hk]
        exact h
      have := ih (assocAppend acc (key x) x) hset
      rw [this]
      simp [List.filter_cons, hk]

/-- Keys of an association list. -/
def keysOf {κ β : Type} (l : List (κ × β)) : List κ := l.map Prod.fst

theorem assocOf_eq_none_iff {κ β : Type} [DecidableEq κ] (l : List (κ × β)) (k : κ) :
    assocOf l k = none ↔ k ∉ keysOf l := by
  induction l with
  | nil => simp [assocOf, keysOf]
  | cons p rest ih =>
    by_cases h : p.1 = k
    · simp [assocOf, keysOf, h]
    · simp only [assocOf, if_neg h, keysOf, List.map_cons, List.mem_cons]
      rw [ih]
      unfold keysOf
      constructor
      · intro hn hm
        cases hm with
        | inl he => exact h he.symm
        | inr hm => exact hn hm
      · intro hn hm
        exact hn (Or.inr hm)

theorem mem_keysOf_assocSet {κ β : Type} [DecidableEq κ] (l : List (κ × β)) (k x : κ)
    (v : β) : x ∈ keysOf (assocSet l k v) ↔ x ∈ keysOf l ∨ x = k := by
  induction l with
  | nil => simp [assocSet, keysOf]
  | cons p rest ih =>
    cases p with
    | mk k0 v0 =>
      by_cases h : k0 = k
      · subst h
        have hred : assocSet ((k0, v0) :: rest) k0 v = (k0, v) :: rest := by
          simp [assocSet]
        rw [hred]
        simp only [keysOf, List.map_cons, List.mem_cons]
        tauto
      · have hne : (k0, v0).1 ≠ k := h
        simp only [assocSet, if_neg hne, keysOf, List.map_cons, List.mem_cons]
        simp only [keysOf] at ih
        rw [ih]
        tauto

theorem assocSet_keys_nodup {κ β : Type} [DecidableEq κ] (l : List (κ × β)) (k : κ) (v : β)
    (h : (keysOf l).Nodup) : (keysOf (assocSet l k v)).Nodup := by
  induction l with
  | nil => simp [assocSet, keysOf]
  | cons p rest ih =>
    cases p with
    | mk k0 v0 =>
      by_cases hp : k0 = k
      · subst hp
        simpa [assocSet, keysOf] using h
      · have hne : (k0, v0).1 ≠ k := hp
        simp only [keysOf, List.map_cons, List.nodup_cons] at h
        simp only [assocSet, if_neg hne, keysOf, List.map_cons, List.nodup_cons]
        refine ⟨?_, ih h.2⟩
        intro hc
        have hc2 : k0 ∈ keysOf (assocSet rest k v) := hc
        rw [mem_keysOf_assocSet] at hc2
        cases hc2 with
        | inl hm => exact h.1 hm
        | inr he => exact hp he

theorem groupAux_keys_nodup {κ β : Type} [DecidableEq κ] (key : β → κ) :
    ∀ (l : List β) (acc : List (κ × List β)), (keysOf acc).Nodup →
      (keysOf (groupAux key acc l)).Nodup := by
  intro l
  induction l with
  | nil => intro acc h; exact h
  | cons x xs ih =>
    intro acc h
    apply ih
    exact assocSet_keys_nodup _ _ _ h

theorem assocOf_of_mem_nodupKeys {κ β : Type} [DecidableEq κ] :
    ∀ (l : List (κ × β)) (k : κ) (v : β), (keysOf l).Nodup → (k, v) ∈ l →
      assocOf l k = some v := by
  intro l
  induction l with
  | nil => intro k v _ hm; exact absurd hm (List.not_mem_nil _)
  | cons p rest ih =>
    intro k v hnd hm
    cases List.mem_cons.1 hm with
    | inl he =>
      subst he
      simp [assocOf]
    | inr hr =>
      have hk : p.1 ≠ k := by
        intro he
        have : k ∈ keysOf rest := by
          unfold keysOf
          exact List.mem_map.2 ⟨(k, v), hr, rfl⟩
        have := (List.nodup_cons.1 hnd).1
        exact this (he ▸ ‹k ∈ keysOf rest›)
      simp only [assocOf, if_neg hk]
      exact ih k v (List.nodup_cons.1 hnd).2 hr

/-- Every group stored by `groupByKey` is the filter of the input at its
key. -/
theorem groupByKey_mem_eq_filter {κ β : Type} [DecidableEq κ] (key : β → κ)
    (l : List β) (k : κ) (g : List β) (h : (k, g) ∈ groupByKey key l) :
    g = l.filter (fun x => key x = k) := by
  have hnd : (keysOf (groupByKey key l)).Nodup :=
    groupAux_keys_nodup key l [] (by simp [keysOf])
  have hsome : assocOf (groupByKey key l) k = some g :=
    assocOf_of_mem_nodupKeys _ k g hnd h
  have hchar := assocOf_groupAux_none key k l [] rfl
  unfold groupByKey at hsome
  rw [hchar] at hsome
  by_cases he : (l.filter (fun x => key x = k)).isEmpty
  · rw [if_pos he] at hsome
    exact absurd hsome (by simp)
  · rw [if_neg he] at hsome
    exact (Option.some_injective _ hsome).symm

/-- Under well-formedness every union-find group has at most 4 members. -/
theorem groupsOf_le_four (uf : UF) (n : Nat) (wf : uf.WF n) :
    ∀ g ∈ groupsOf uf n, g.length ≤ 4 := by
  intro g hg
  unfold groupsOf at hg
  obtain ⟨⟨k, g'⟩, hmem, hEq⟩ := List.mem_map.1 hg
  simp only at hEq
  subst hEq
  have hfil := groupByKey_mem_eq_filter (fun i => uf.find i) (List.range n) k g' hmem
  cases hg' : g' with
  | nil => simp
  | cons i rest =>
    have hi : i ∈ g' := by rw [hg']; exact List.mem_cons_self i rest
    rw [hfil] at hi
    have hi2 := List.mem_filter.1 hi
    have hiLt : i < n := List.mem_range.1 hi2.1
    have hik : uf.find i = k := by simpa using hi2.2
    have hkRoot : uf.find k = k := by rw [← hik]; exact wf.findIdem i hiLt
    have hkLt : k < n := hik ▸ wf.findLt i hiLt
    have hcount : g'.length = rootCount uf n k := by rw [hfil]; rfl
    rw [← hg', hcount, ← wf.sizeEq k hkLt hkRoot]
    exact wf.sizeLe k hkLt hkRoot

/-- The group bound for the splitter union-find, in the form needed by the
termination argument of `splitCluster`. -/
theorem capGroups_le_four (n : Nat) (edges : List (Nat × Nat)) :
    ∀ g ∈ groupsOf (capMergeAll (UF.init n) edges) n, g.length ≤ 4 :=
  groupsOf_le_four _ n (UF.wf_capMergeAll _ n (UF.wf_init n) edges)

/-! ## Deterministic splitter -/

/-- Record row with its per-input position index, the model of the
driver-assigned `_internalId = "row_" + i` (spec data model); positions
are unique, so identity lookups by internal id coincide with index
lookups. -/
structure Row where
  idx : Nat
  row : RawRecord
deriving DecidableEq

instance : Inhabited Row := ⟨⟨0, {}⟩⟩

/-- A scored intra-subset edge of the splitter (in the at-most-4 branch
the source omits the index fields; they are carried here unused). -/
structure LocalEdge where
  a : Nat
  b : Nat
  score : ℚ
  reasons : List String
  breakdown : Breakdown
deriving DecidableEq

/-- Retained pair-score summary of a cluster. -/
structure PairScore where
  finalScore : ℚ
  womanNameScore : Option ℚ
  husbandNameScore : Option ℚ
deriving DecidableEq

/-- Summary of one local edge; `breakdown?.firstNameScore` is undefined
(`none`) unless the weighted-sum branch produced the score. -/
def mkPairScore (e : LocalEdge) : PairScore :=
  match e.breakdown with
  | .full c => ⟨e.score, some c.firstNameScore, some c.husbandScore⟩
  | _ => ⟨e.score, none, none⟩

/-- A finished cluster. -/
structure Cluster where
  records : List Row
  reasons : List String
  pairScores : List PairScore
deriving DecidableEq

/-- All intra-subset pairs scored, retaining those at or above the
internal threshold. -/
def localEdgesOf (rowsSubset : List Row) (minInternal : ℚ) (o : Opts) : List LocalEdge :=
  (pairsOf (List.range rowsSubset.length)).filterMap (fun p =>
    let r := pairwiseScore (rowsSubset.getD p.1 default).row (rowsSubset.getD p.2 default).row o
    if r.score ≥ minInternal then some ⟨p.1, p.2, r.score, r.reasons, r.breakdown⟩ else none)

/-- The deterministic splitter, structured with explicit recursion fuel
(the source recursion is depth-bounded because the cap-merge groups never
exceed 4 members, see the group bound; fuel 0 is never consumed):
subsets of 2-4 records become one cluster; larger subsets are partitioned
by the cap-merge union-find over the sorted local edges, groups of one
are dropped, and any group above 4 would recurse with a raised floor. -/
def splitClusterF (o : Opts) : Nat → List Row → ℚ → List Cluster
  | 0, _, _ => []
  | _fuel + 1, rowsSubset, minInternal =>
    if rowsSubset.length ≤ 1 then []
    else if rowsSubset.length ≤ 4 then
      let localEdges := localEdgesOf rowsSubset minInternal o
      [{ records := rowsSubset
         reasons := dedupKeepFirst ((localEdges.map (fun e => e.reasons)).flatten)
         pairScores := localEdges.map mkPairScore }]
    else
      let localEdges := sortByScoreDesc (fun e => e.score) (localEdgesOf rowsSubset minInternal o)
      let uf := capMergeAll (UF.init rowsSubset.length) (localEdges.map (fun e => (e.a, e.b)))
      (groupsOf uf rowsSubset.length).flatMap (fun idxs =>
        if idxs.length ≤ 1 then []
        else
          let subset := idxs.map (fun i => rowsSubset.getD i default)
          let subEdges := localEdges.filter (fun e => idxs.contains e.a && idxs.contains e.b)
          let reasons := dedupKeepFirst ((subEdges.map (fun e => e.reasons)).flatten)
          let pairScores := subEdges.map mkPairScore
          if subset.length ≤ 4 then
            [{ records := subset, reasons := reasons, pairScores := pairScores }]
          else splitClusterF o _fuel subset (max minInternal (45 / 100)))

/-- The deterministic splitter (fuel instantiated amply). -/
def splitCluster (rowsSubset : List Row) (minInternal : ℚ) (o : Opts) : List Cluster :=
  splitClusterF o (rowsSubset.length + 1) rowsSubset minInternal

/-- The splitter with the recursive branch replaced by the empty list;
`splitCluster` coincides with it because the cap bound makes the recursive
branch unreachable. -/
def splitClusterFlat (rowsSubset : List Row) (minInternal : ℚ) (o : Opts) : List Cluster :=
  if rowsSubset.length ≤ 1 then []
  else if rowsSubset.length ≤ 4 then
    let localEdges := localEdgesOf rowsSubset minInternal o
    [{ records := rowsSubset
       reasons := dedupKeepFirst ((localEdges.map (fun e => e.reasons)).flatten)
       pairScores := localEdges.map mkPairScore }]
  else
    let localEdges := sortByScoreDesc (fun e => e.score) (localEdgesOf rowsSubset minInternal o)
    let uf := capMergeAll (UF.init rowsSubset.length) (localEdges.map (fun e => (e.a, e.b)))
    (groupsOf uf rowsSubset.length).flatMap (fun idxs =>
      if idxs.length ≤ 1 then []
      else
        let subset := idxs.map (fun i => rowsSubset.getD i default)
        let subEdges := localEdges.filter (fun e => idxs.contains e.a && idxs.contains e.b)
        let reasons := dedupKeepFirst ((subEdges.map (fun e => e.reasons)).flatten)
        let pairScores := subEdges.map mkPairScore
        if subset.length ≤ 4 then
          [{ records := subset, reasons := reasons, pairScores := pairScores }]
        else [])

/-! ## Cluster assembler -/

/-- Assembler state while consuming edges. -/
structure AsmState where
  uf : UF
  finalized : List Nat
  finalClusters : List Cluster
  edgesUsed : List Edge
  rootReasons : List (Nat × List String)

/-- Add reason tags to an insertion-ordered reason set. -/
def addReasons (cur : List String) (newTags : List String) : List String :=
  newTags.foldl (fun acc r => if acc.contains r then acc else acc ++ [r]) cur

/-- Consume one edge: skip if an endpoint is finalized, propagate reasons
onto the endpoint roots, then either record (same root), merge (cap
allows) or split the combined component and finalize its parts
(overflow). -/
def processEdge (rows : List Row) (minInternal : ℚ) (o : Opts) (st : AsmState) (e : Edge) :
    AsmState :=
  if st.finalized.contains e.a || st.finalized.contains e.b then st
  else
    let ra := st.uf.find e.a
    let rb := st.uf.find e.b
    let rr1 := assocSet st.rootReasons ra (addReasons (lookupD st.rootReasons ra []) e.reasons)
    if ra = rb then
      { st with rootReasons := rr1, edgesUsed := st.edgesUsed ++ [e] }
    else
      let rr2 := assocSet rr1 rb (addReasons (lookupD rr1 rb []) e.reasons)
      if st.uf.size.getD ra 0 + st.uf.size.getD rb 0 ≤ 4 then
        let m := st.uf.mergeRoots ra rb
        let allR := addReasons (lookupD rr2 ra []) (lookupD rr2 rb [])
        { uf := m.1, finalized := st.finalized, finalClusters := st.finalClusters,
          edgesUsed := st.edgesUsed ++ [e], rootReasons := assocSet rr2 m.2 allR }
      else
        let combinedIdx := dedupKeepFirst (st.uf.rootMembers ra ++ st.uf.rootMembers rb)
        let combinedRows := combinedIdx.map (fun i => rows.getD i default)
        let parts := splitCluster combinedRows minInternal o
        let st1 := parts.foldl (fun s p =>
          if p.records.length ≤ 1 then s
          else
            { s with
              finalClusters := s.finalClusters ++ [p]
              finalized := p.records.foldl (fun fz r =>
                match rows.findIdx? (fun row => row.idx = r.idx) with
                | some oi => if fz.contains oi then fz else fz ++ [oi]
                | none => fz) s.finalized })
          { st with rootReasons := rr2 }
        { st1 with edgesUsed := st1.edgesUsed ++ [e] }

/-- Result bundle of a clustering run. -/
structure ClusterResult where
  clusters : List Cluster
  edgesUsed : List Edge
  rows : List Row
deriving DecidableEq

/-- The main clustering pipeline: attach position ids, build and sort the
edges, consume them through the capped assembler, pass unfinalized
multi-member components through the splitter, and resolve cluster records
back to input rows by internal id (the options forwarded to `buildEdges`
are the fully-populated configuration, so the `Object.assign` re-merge of
the source is the identity here). -/
def runClustering (raws : List RawRecord) (o : Opts) : ClusterResult :=
  let rows : List Row := raws.enum.map (fun p => ⟨p.1, p.2⟩)
  let minPair := o.thresholds.minPair
  let minInternal := o.thresholds.minInternal
  let edges := buildEdges raws minPair o
  let st0 : AsmState := ⟨UF.init rows.length, [], [], [], []⟩
  let st := edges.foldl (processEdge rows minInternal o) st0
  let leftovers := groupByKey (fun i => st.uf.find i)
    ((List.range rows.length).filter (fun i => ¬st.finalized.contains i))
  let finalClusters := leftovers.foldl (fun fc p =>
    if p.2.length ≤ 1 then fc
    else
      let subRows := p.2.map (fun i => rows.getD i default)
      let parts := splitCluster subRows minInternal o
      parts.foldl (fun fc2 q =>
        if q.records.length > 1 then
          fc2 ++ [{ q with
            reasons := dedupKeepFirst (q.reasons ++ lookupD st.rootReasons p.1 []) }]
        else fc2) fc) st.finalClusters
  let clustersWithRecords := (finalClusters.map (fun c =>
    { c with records := c.records.map (fun r =>
        match rows.find? (fun row => row.idx = r.idx) with
        | some row => row
        | none => r) })).filter (fun c => c.records.length > 1)
  ⟨clustersWithRecords, st.edgesUsed, rows⟩

/-- The worker mapping step for one canonical record: clean the children
list and attach the precomputed normalized attributes (lines 686-691 of
the worker entrypoint). -/
def attachNormalized (r : RawRecord) : RawRecord :=
  { r with
    children := normalizeChildrenField r.children
    womanName_normalized := normA r.womanName
    husbandName_normalized := normA r.husbandName
    village_normalized := normA r.village
    subdistrict_normalized := normA r.subdistrict
    children_normalized := (normalizeChildrenField r.children).map normA }

/-! ## Audit engine -/

/-- Natural number as decimal characters. -/
def natStr (n : Nat) : Str := (Nat.repr n).data

/-- JS `toFixed(2)` on a nonnegative rational (round half towards plus
infinity, two digits). -/
def toFixed2 (q : ℚ) : Str :=
  let n : Nat := (Int.floor (q * 100 + 1 / 2)).toNat
  natStr (n / 100) ++ str "." ++ (if n % 100 < 10 then str "0" else []) ++ natStr (n % 100)

/-- An audit finding (`ftype` models the `type` field). -/
structure Finding where
  ftype : String
  severity : String
  description : Str
  records : List Row
deriving DecidableEq

/-- Trimmed national id of a record, the key of the DUPLICATE_ID rule. -/
def trimmedId (r : Row) : Str := jsTrim r.row.nationalId

/-- Grouping key of the WOMAN_MULTIPLE_HUSBANDS rule: the raw woman name,
or the internal id when blank, trimmed. -/
def womanKeyOf (r : Row) : Str :=
  jsTrim (if ¬r.row.womanName.isEmpty then r.row.womanName else str "row_" ++ natStr r.idx)

/-- The couple key of the DUPLICATE_COUPLE rule (lowercasing modeled at
ASCII level; Arabic is caseless, so this matches JS on the data the engine
handles). -/
def coupleKeyOf (r : Row) : Str :=
  (r.row.womanName.map lowerChar) ++ '|' :: (r.row.husbandName.map lowerChar)

/-- The offline audit over finished clusters: duplicate national ids,
women with several distinct husband names, high-similarity intra-cluster
pairs, and duplicate couples, in source order. -/
def runAuditOnClusters (clusters : List Cluster) : List Finding :=
  let allRecs := (clusters.map (fun c => c.records)).flatten
  let idMap := groupByKey trimmedId (allRecs.filter (fun r => ¬(trimmedId r).isEmpty))
  let findingsA := idMap.foldl (fun fs p =>
    if p.2.length > 1 then
      fs ++ [{ ftype := "DUPLICATE_ID", severity := "high",
               description := str "National ID " ++ p.1 ++ str " appears in " ++
                 natStr p.2.length ++ str " records.",
               records := p.2 }]
    else fs) []
  let womanGroups := groupByKey womanKeyOf allRecs
  let findingsB := womanGroups.foldl (fun fs p =>
    let hs := dedupKeepFirst
      ((p.2.map (fun r => jsTrim r.row.husbandName)).filter (fun h => ¬h.isEmpty))
    if hs.length > 1 then
      fs ++ [{ ftype := "WOMAN_MULTIPLE_HUSBANDS", severity := "high",
               description := p.1 ++ str " is associated with " ++ natStr hs.length ++
                 str " distinct husband names.",
               records := p.2 }]
    else fs) findingsA
  let findingsC := clusters.foldl (fun fs c =>
    (pairsOf c.records).foldl (fun fs2 pr =>
      let nameScore := jaroWinkler pr.1.row.womanName pr.2.row.womanName
      let husbandScore := jaroWinkler pr.1.row.husbandName pr.2.row.husbandName
      if nameScore ≥ 92 / 100 ∧ husbandScore ≥ 9 / 10 then
        fs2 ++ [{ ftype := "HIGH_SIMILARITY", severity := "medium",
                  description := str "Records \"" ++ pr.1.row.womanName ++ str "\" and \"" ++
                    pr.2.row.womanName ++ str "\" have high similarity (name:" ++
                    toFixed2 nameScore ++ str ", husband:" ++ toFixed2 husbandScore ++ str ").",
                  records := [pr.1, pr.2] }]
      else fs2) fs) findingsB
  let coupleMap := groupByKey coupleKeyOf allRecs
  coupleMap.foldl (fun fs p =>
    if p.2.length > 1 then
      fs ++ [{ ftype := "DUPLICATE_COUPLE", severity := "medium",
               description := str "Couple (" ++ p.1 ++ str ") appears " ++
                 natStr p.2.length ++ str " times.",
               records := p.2 }]
    else fs) findingsC

/-! ## Concrete inputs used by the counterexamples and witnesses -/

/-- Six mapped records on which the assembler emits two overlapping
clusters: two overflow splits of the same oversized component both
finalize rows 0, 1 and 2. -/
def demoDisjoint : List RawRecord :=
  [ { womanName := str "ddd eee fff ggg", nationalId := str "11111", village := str "qqq" },
    { womanName := str "iii ddd eee fff ggg", nationalId := str "44444", village := str "qqq" },
    { womanName := str "jjj kkk lll mmm", nationalId := str "11111", village := str "qqq" },
    { womanName := str "nnn jjj kkk lll mmm", nationalId := str "55555", village := str "qqq" },
    { womanName := str "eee fff ggg iii", nationalId := str "33333", village := str "qqq" },
    { womanName := str "ppp eee fff ggg iii", nationalId := str "66666", village := str "qqq" }
  ].map attachNormalized

/-- Three mapped records whose equal-score edges are discovered out of
index order (the phone-prefixed bucket pairs 0 with 2 first). -/
def demoTieOrder : List RawRecord :=
  [ { womanName := str "aaa", nationalId := str "77777", phone := str "5555" },
    { womanName := str "aaa", nationalId := str "77777" },
    { womanName := str "aaa", nationalId := str "77777", phone := str "5555" }
  ].map attachNormalized

/-- A mapped record pair with equal non-empty villages and equal
non-empty subdistricts and no other signal. -/
def demoLocA : RawRecord := attachNormalized { village := str "v1", subdistrict := str "s1" }

/-- Partner of `demoLocA`. -/
def demoLocB : RawRecord := attachNormalized { village := str "v1", subdistrict := str "s1" }

/-- The component breakdown the scorer computes for the pair
`demoLocA`, `demoLocB`. -/
def demoLocComponents : Components :=
  { firstNameScore := 0, familyNameScore := 0, advancedNameScore := 0,
    tokenReorderScore := 0, husbandScore := 0, idScore := 0, phoneScore := 0,
    childrenScore := 0, locationScore := 2 / 5 }

/-! ## C5: the exact-id short circuit -/

/-- C5: whenever the two effective national ids are non-empty and equal,
the scorer returns exactly score 0.99 with the single reason EXACT_ID and
the exact-id breakdown, independently of every other field and of the
configuration; the short circuit precedes every other rule. -/
theorem c5_exact_id_short_circuit (a b : RawRecord) (o : Opts)
    (ha : ¬(effectiveId a).isEmpty) (hab : effectiveId a = effectiveId b) :
    pairwiseScore a b o =
      { score := 99 / 100, breakdown := Breakdown.exactId, reasons := ["EXACT_ID"] } := by
  unfold pairwiseScore pairwiseScoreLocal
  have h1 : (localize a).nationalId = effectiveId a := rfl
  have h2 : (localize b).nationalId = effectiveId b := rfl
  rw [if_pos ?hc]
  case hc =>
    refine ⟨?_, ?_, ?_⟩
    · rw [h1]; exact ha
    · rw [h2, ← hab]; exact ha
    · rw [h1, h2]; exact hab

/-- Witness for C5: two records agreeing on the id only through the
fallback field. -/
theorem c5_witness :
    ¬(effectiveId { nationalId := str "12345" } : Str).isEmpty ∧
    pairwiseScore { nationalId := str "12345" } { id := str "12345" } defaultOpts =
      { score := 99 / 100, breakdown := Breakdown.exactId, reasons := ["EXACT_ID"] } :=
  ⟨by decide, c5_exact_id_short_circuit _ _ defaultOpts (by decide) (by decide)⟩

/-! ## C10: the scorer projection -/

/-- The seven argument fields the scorer reads. -/
def scorerProjection (r : RawRecord) : Str × Str × Str × Str × Str × Str × List Str :=
  (r.womanName, r.husbandName, r.nationalId, r.id, r.phone, r.village, r.children)

/-- The scorer local record with the (unread) subdistrict copy blanked. -/
def maskSub (x : LocalRec) : LocalRec := { x with subdistrict := [] }

/-- The local scorer never reads the subdistrict copy. -/
theorem pairwiseScoreLocal_mask (a b : LocalRec) (o : Opts) :
    pairwiseScoreLocal a b o = pairwiseScoreLocal (maskSub a) (maskSub b) o := by
  cases a
  cases b
  rfl

/-- Up to the unread subdistrict copy, the local record depends only on
the scorer projection. -/
theorem maskSub_localize_eq (a a' : RawRecord)
    (h : scorerProjection a = scorerProjection a') :
    maskSub (localize a) = maskSub (localize a') := by
  unfold scorerProjection at h
  simp only [Prod.mk.injEq] at h
  obtain ⟨h1, h2, h3, h4, h5, h6, h7⟩ := h
  unfold maskSub localize effectiveId
  simp only [h1, h2, h3, h4, h5, h6, h7]

/-- C10: the scorer output is a function of the womanName, husbandName,
nationalId, id, phone, village and children fields of its two arguments
alone; the subdistrict, the precomputed normalized attributes, and the
passthrough columns never influence it. -/
theorem c10_projection_only (a a' b b' : RawRecord) (o : Opts)
    (ha : scorerProjection a = scorerProjection a')
    (hb : scorerProjection b = scorerProjection b') :
    pairwiseScore a b o = pairwiseScore a' b' o := by
  unfold pairwiseScore
  rw [pairwiseScoreLocal_mask (localize a) (localize b) o,
    maskSub_localize_eq a a' ha, maskSub_localize_eq b b' hb,
    ← pairwiseScoreLocal_mask (localize a') (localize b') o]

/-- First record of the C10 witness. -/
def c10recA : RawRecord := { womanName := str "aaa", subdistrict := str "s1" }

/-- Variant of the first C10 witness record differing in subdistrict,
precomputed attributes and passthrough columns. -/
def c10recA2 : RawRecord :=
  { womanName := str "aaa", subdistrict := str "s2",
    womanName_normalized := str "zzz", passthrough := [(str "k", str "v")] }

/-- Second record of the C10 witness. -/
def c10recB : RawRecord := { womanName := str "bbb" }

/-- Witness for C10: changing subdistrict, precomputed attributes and
passthrough columns leaves the result unchanged. -/
theorem c10_witness :
    scorerProjection c10recA = scorerProjection c10recA2 ∧
    pairwiseScore c10recA c10recB defaultOpts = pairwiseScore c10recA2 c10recB defaultOpts :=
  ⟨rfl, c10_projection_only _ _ _ _ defaultOpts rfl rfl⟩

/-! ## C3: the location score -/

/-- Amended C3: in the weighted-sum fallback the location component is
0.40 exactly when the normalized villages are equal and non-empty, and 0
otherwise; the subdistrict term never contributes, because the local
records built by the scorer never receive a `subdistrict_normalized`
attribute. -/
theorem c3_location_score_amended (a b : RawRecord) (o : Opts) (c : Components)
    (h : (pairwiseScore a b o).breakdown = Breakdown.full c) :
    c.locationScore =
      if ¬(normA a.village).isEmpty ∧ ¬(normA b.village).isEmpty ∧
          normA a.village = normA b.village then (2 / 5 : ℚ) else 0 := by
  unfold pairwiseScore pairwiseScoreLocal at h
  dsimp only at h
  split at h
  · simp at h
  · split at h
    · simp at h
    · split at h
      · simp at h
      · simp only [Breakdown.full.injEq] at h
        subst h
        have hva : (localize a).village_normalized = normA a.village := rfl
        have hvb : (localize b).village_normalized = normA b.village := rfl
        have hsa : (localize a).subdistrict_normalized = none := rfl
        dsimp only
        rw [hva, hvb, hsa]
        rw [if_neg (show ¬(truthyOpt none = true ∧
          truthyOpt (localize b).subdistrict_normalized = true ∧
          (none : Option Str) = (localize b).subdistrict_normalized) by simp [truthyOpt])]
        by_cases hv : ¬(normA a.village).isEmpty = true ∧ ¬(normA b.village).isEmpty = true ∧
            normA a.village = normA b.village
        · rw [if_pos hv, if_pos hv]
          norm_num
        · rw [if_neg hv, if_neg hv]
          norm_num

/-- C3 counterexample: a fallback pair with equal non-empty villages and
equal non-empty subdistricts whose locationScore is 0.40, not the 0.50
the claim requires (the subdistrict term cannot fire). -/
theorem c3_counterexample :
    ¬(normA demoLocA.village).isEmpty ∧ normA demoLocA.village = normA demoLocB.village ∧
    ¬(normA demoLocA.subdistrict).isEmpty ∧
    normA demoLocA.subdistrict = normA demoLocB.subdistrict ∧
    (pairwiseScore demoLocA demoLocB defaultOpts).breakdown =
      Breakdown.full demoLocComponents ∧
    demoLocComponents.locationScore = 2 / 5 ∧ (2 / 5 : ℚ) ≠ 1 / 2 := by
  with_unfolding_all decide

/-- Witness for the amended C3 theorem at the concrete pair. -/
theorem c3_amended_witness :
    demoLocComponents.locationScore =
      if ¬(normA demoLocA.village).isEmpty = true ∧ ¬(normA demoLocB.village).isEmpty = true ∧
          normA demoLocA.village = normA demoLocB.village then (2 / 5 : ℚ) else 0 :=
  c3_location_score_amended demoLocA demoLocB defaultOpts demoLocComponents
    (by with_unfolding_all decide)

/-! ## C9: totality of the splitter -/

theorem flatMap_congr_mem {α β : Type} (l : List α) (f g : α → List β)
    (h : ∀ a ∈ l, f a = g a) : l.flatMap f = l.flatMap g := by
  induction l with
  | nil => rfl
  | cons x xs ih =>
    simp only [List.flatMap_cons]
    rw [h x (by simp), ih (fun a ha => h a (by simp [ha]))]

/-- With any positive fuel the splitter equals its non-recursive form: the
4-cap on the union-find groups makes the recursive branch unreachable. -/
theorem splitClusterF_succ_eq_flat (o : Opts) (fuel : Nat) (rowsSubset : List Row)
    (minInternal : ℚ) :
    splitClusterF o (fuel + 1) rowsSubset minInternal =
      splitClusterFlat rowsSubset minInternal o := by
  unfold splitClusterF splitClusterFlat
  by_cases h1 : rowsSubset.length ≤ 1
  · rw [if_pos h1, if_pos h1]
  · rw [if_neg h1, if_neg h1]
    by_cases h4 : rowsSubset.length ≤ 4
    · rw [if_pos h4, if_pos h4]
    · rw [if_neg h4, if_neg h4]
      apply flatMap_congr_mem
      intro idxs hmem
      have hle : idxs.length ≤ 4 := capGroups_le_four rowsSubset.length _ idxs hmem
      by_cases hi1 : idxs.length ≤ 1
      · rw [if_pos hi1, if_pos hi1]
      · rw [if_neg hi1, if_neg hi1]
        dsimp only
        have hlen : (idxs.map (fun i => rowsSubset.getD i default)).length ≤ 4 := by
          rw [List.length_map]; exact hle
        rw [if_pos hlen, if_pos hlen]

/-- C9: the splitter is total. Its recursion (modeled with fuel) is never
entered: any positive fuel yields the same result, which moreover equals
the explicitly non-recursive form of the splitter, because the cap-merge
union-find only builds groups of at most 4 members. -/
theorem c9_splitter_total (o : Opts) (rowsSubset : List Row) (minInternal : ℚ) :
    splitCluster rowsSubset minInternal o = splitClusterFlat rowsSubset minInternal o ∧
    ∀ fuel : Nat, splitClusterF o (fuel + 1) rowsSubset minInternal =
      splitCluster rowsSubset minInternal o := by
  constructor
  · exact splitClusterF_succ_eq_flat o rowsSubset.length rowsSubset minInternal
  · intro fuel
    show _ = splitClusterF o (rowsSubset.length + 1) rowsSubset minInternal
    rw [splitClusterF_succ_eq_flat, splitClusterF_succ_eq_flat]

/-! ## C4: edge ordering -/

theorem chain_ge_insertByScoreDesc {α : Type} (sc : α → ℚ) (e : α) :
    ∀ l : List α, List.Chain' (fun x y => sc y ≤ sc x) l →
      List.Chain' (fun x y => sc y ≤ sc x) (insertByScoreDesc sc e l) := by
  intro l
  induction l with
  | nil => intro _; simp [insertByScoreDesc]
  | cons x xs ih =>
    intro h
    show List.Chain' _ (if sc x ≥ sc e then x :: insertByScoreDesc sc e xs else e :: x :: xs)
    by_cases hc : sc x ≥ sc e
    · rw [if_pos hc]
      have htail := ih (List.Chain'.tail h)
      cases xs with
      | nil =>
        simp only [insertByScoreDesc]
        exact List.chain'_cons.2 ⟨hc, List.chain'_singleton e⟩
      | cons y ys =>
        show List.Chain' _ (x :: if sc y ≥ sc e then y :: insertByScoreDesc sc e ys
          else e :: y :: ys)
        by_cases hy : sc y ≥ sc e
        · rw [if_pos hy]
          refine List.chain'_cons.2 ⟨(List.chain'_cons.1 h).1, ?_⟩
          have h2 : insertByScoreDesc sc e (y :: ys) = y :: insertByScoreDesc sc e ys := by
            show (if sc y ≥ sc e then y :: insertByScoreDesc sc e ys else e :: y :: ys) = _
            rw [if_pos hy]
          rw [← h2]
          exact htail
        · rw [if_neg hy]
          exact List.chain'_cons.2 ⟨hc, List.chain'_cons.2 ⟨le_of_not_le hy,
            List.Chain'.tail h⟩⟩
    · rw [if_neg hc]
      exact List.chain'_cons.2 ⟨le_of_not_le hc, h⟩

theorem chain_ge_sortByScoreDesc {α : Type} (sc : α → ℚ) (l : List α) :
    List.Chain' (fun x y => sc y ≤ sc x) (sortByScoreDesc sc l) := by
  suffices h : ∀ acc : List α, List.Chain' (fun x y => sc y ≤ sc x) acc →
      List.Chain' (fun x y => sc y ≤ sc x)
        (l.foldl (fun acc e => insertByScoreDesc sc e acc) acc) by
    exact h [] (List.chain'_nil)
  induction l with
  | nil => intro acc h; exact h
  | cons x xs ih =>
    intro acc h
    exact ih _ (chain_ge_insertByScoreDesc sc x acc h)

/-- Amended C4: consecutive edges of the built edge list have nonincreasing
scores; nothing more — the sort comparator reads only the score, and the
stable sort keeps equal-score edges in discovery order, which does not
follow the ascending index-pair order. -/
theorem c4_edges_sorted_amended (rows : List RawRecord) (minScore : ℚ) (o : Opts) :
    List.Chain' (fun e f => f.score ≤ e.score) (buildEdges rows minScore o) := by
  unfold buildEdges
  exact chain_ge_sortByScoreDesc (fun e : Edge => e.score) _

/-- C4 counterexample: on a concrete input all three edges carry score
0.99, but the wp-block discovers (0, 2) before (0, 1), so the consumed
order violates the ascending index-pair tie rule the claim asserts. -/
theorem c4_counterexample :
    ((buildEdges demoTieOrder defaultOpts.thresholds.minPair defaultOpts).map
        (fun e => (e.a, e.b, e.score))) =
      [(0, 2, 99 / 100), (0, 1, 99 / 100), (1, 2, 99 / 100)] ∧
    ¬List.Chain' specEdgeOrder
      (buildEdges demoTieOrder defaultOpts.thresholds.minPair defaultOpts) := by
  have hmap : ((buildEdges demoTieOrder defaultOpts.thresholds.minPair defaultOpts).map
      (fun e => (e.a, e.b, e.score))) =
      [(0, 2, 99 / 100), (0, 1, 99 / 100), (1, 2, 99 / 100)] := by
    with_unfolding_all decide
  refine ⟨hmap, ?_⟩
  intro hch
  cases hE : buildEdges demoTieOrder defaultOpts.thresholds.minPair defaultOpts with
  | nil => rw [hE] at hmap; simp at hmap
  | cons e1 tl =>
    cases tl with
    | nil => rw [hE] at hmap; simp at hmap
    | cons e2 rest =>
      rw [hE] at hch hmap
      have h12 := (List.chain'_cons.1 hch).1
      simp only [List.map_cons, List.cons.injEq, Prod.mk.injEq] at hmap
      obtain ⟨⟨ha1, hb1, hs1⟩, ⟨ha2, hb2, hs2⟩, _⟩ := hmap
      unfold specEdgeOrder at h12
      rw [ha1, hb1, hs1, ha2, hb2, hs2] at h12
      rcases h12 with h | ⟨_, h | ⟨_, h⟩⟩
      · exact absurd h (lt_irrefl _)
      · exact absurd h (lt_irrefl _)
      · omega

/-! ## C1: overlapping clusters out of the overflow branch -/

set_option maxRecDepth 200000 in
/-- C1 (code bug): on this six-record input the pipeline emits two
clusters that share the records at positions 0, 1 and 2, so the emitted
clusters are not pairwise disjoint. The overflow branch of the assembler
regathers the full union-find components without filtering out records it
finalized on an earlier overflow, and re-emits them. -/
theorem c1_overlap_bug :
    ((runClustering demoDisjoint defaultOpts).clusters.map
        (fun c => c.records.map (fun r => r.idx))) = [[0, 2, 1, 3], [0, 2, 1, 4]] ∧
    ((runClustering demoDisjoint defaultOpts).clusters.countP
        (fun c => c.records.any (fun r => r.idx = 0))) = 2 := by
  with_unfolding_all decide

/-! ## C2: cluster size bounds -/

/-- Every cluster the non-recursive splitter emits has 2 to 4 records. -/
theorem splitClusterFlat_bounds (rows : List Row) (m : ℚ) (o : Opts) :
    ∀ c ∈ splitClusterFlat rows m o, 2 ≤ c.records.length ∧ c.records.length ≤ 4 := by
  intro c hc
  unfold splitClusterFlat at hc
  by_cases h1 : rows.length ≤ 1
  · rw [if_pos h1] at hc
    exact absurd hc (List.not_mem_nil c)
  · rw [if_neg h1] at hc
    by_cases h4 : rows.length ≤ 4
    · rw [if_pos h4] at hc
      try dsimp only at hc
      rw [List.mem_singleton] at hc
      subst hc
      constructor
      · show 2 ≤ rows.length; omega
      · show rows.length ≤ 4; exact h4
    · rw [if_neg h4] at hc
      try dsimp only at hc
      rw [List.mem_flatMap] at hc
      obtain ⟨idxs, _, hc⟩ := hc
      by_cases hi1 : idxs.length ≤ 1
      · rw [if_pos hi1] at hc
        exact absurd hc (List.not_mem_nil c)
      · rw [if_neg hi1] at hc
        try dsimp only at hc
        by_cases hs4 : (idxs.map (fun i => rows.getD i default)).length ≤ 4
        · rw [if_pos hs4] at hc
          rw [List.mem_singleton] at hc
          subst hc
          refine ⟨?_, hs4⟩
          show 2 ≤ (idxs.map (fun i => rows.getD i default)).length
          rw [List.length_map]
          omega
        · rw [if_neg hs4] at hc
          exact absurd hc (List.not_mem_nil c)

/-- Every cluster the splitter emits has 2 to 4 records. -/
theorem splitCluster_bounds (rows : List Row) (m : ℚ) (o : Opts) :
    ∀ c ∈ splitCluster rows m o, 2 ≤ c.records.length ∧ c.records.length ≤ 4 := by
  intro c hc
  rw [show splitCluster rows m o = splitClusterFlat rows m o from
    splitClusterF_succ_eq_flat o rows.length rows m] at hc
  exact splitClusterFlat_bounds rows m o c hc

/-- The overflow fold of the assembler only appends splitter clusters. -/
theorem overflow_fold_bounds (rows : List Row) (parts : List Cluster) :
    ∀ s : AsmState,
      (∀ c ∈ s.finalClusters, 2 ≤ c.records.length ∧ c.records.length ≤ 4) →
      (∀ p ∈ parts, 2 ≤ p.records.length ∧ p.records.length ≤ 4) →
      ∀ c ∈ (parts.foldl (fun s p =>
          if p.records.length ≤ 1 then s
          else
            { s with
              finalClusters := s.finalClusters ++ [p]
              finalized := p.records.foldl (fun fz r =>
                match rows.findIdx? (fun row => row.idx = r.idx) with
                | some oi => if fz.contains oi then fz else fz ++ [oi]
                | none => fz) s.finalized }) s).finalClusters,
        2 ≤ c.records.length ∧ c.records.length ≤ 4 := by
  induction parts with
  | nil => intro s hs _ c hc; exact hs c hc
  | cons p rest ih =>
    intro s hs hp c hc
    rw [List.foldl_cons] at hc
    refine ih _ ?_ (fun q hq => hp q (by simp [hq])) c hc
    by_cases h1 : p.records.length ≤ 1
    · rw [if_pos h1]; exact hs
    · rw [if_neg h1]
      intro d hd
      rcases List.mem_append.1 hd with hd | hd
      · exact hs d hd
      · rw [List.mem_singleton] at hd
        subst hd
        exact hp d (by simp)

/-- Consuming one edge preserves the cluster size bounds. -/
theorem processEdge_bounds (rows : List Row) (m : ℚ) (o : Opts) (st : AsmState) (e : Edge)
    (h : ∀ c ∈ st.finalClusters, 2 ≤ c.records.length ∧ c.records.length ≤ 4) :
    ∀ c ∈ (processEdge rows m o st e).finalClusters,
      2 ≤ c.records.length ∧ c.records.length ≤ 4 := by
  unfold processEdge
  by_cases h0 : (st.finalized.contains e.a || st.finalized.contains e.b) = true
  · rw [if_pos h0]; exact h
  · rw [if_neg h0]
    dsimp only
    by_cases h1 : st.uf.find e.a = st.uf.find e.b
    · rw [if_pos h1]; exact h
    · rw [if_neg h1]
      by_cases h2 : st.uf.size.getD (st.uf.find e.a) 0 + st.uf.size.getD (st.uf.find e.b) 0 ≤ 4
      · rw [if_pos h2]; exact h
      · rw [if_neg h2]
        try dsimp only
        intro c hc
        have hb := splitCluster_bounds ((dedupKeepFirst (st.uf.rootMembers (st.uf.find e.a) ++
          st.uf.rootMembers (st.uf.find e.b))).map (fun i => rows.getD i default)) m o
        refine overflow_fold_bounds rows _ _ ?_ hb c hc
        exact fun d hd => h d hd

/-- The whole edge fold preserves the cluster size bounds. -/
theorem edges_fold_bounds (rows : List Row) (m : ℚ) (o : Opts) (edges : List Edge) :
    ∀ st : AsmState,
      (∀ c ∈ st.finalClusters, 2 ≤ c.records.length ∧ c.records.length ≤ 4) →
      ∀ c ∈ (edges.foldl (processEdge rows m o) st).finalClusters,
        2 ≤ c.records.length ∧ c.records.length ≤ 4 := by
  induction edges with
  | nil => intro st h c hc; exact h c hc
  | cons e rest ih =>
    intro st h c hc
    rw [List.foldl_cons] at hc
    exact ih _ (processEdge_bounds rows m o st e h) c hc

/-- The inner fold of the leftover pass only appends clusters drawn from
its parts list (with rewritten reasons). -/
theorem leftover_inner_fold_bounds (rrtag : List String) (parts : List Cluster)
    (hparts : ∀ p ∈ parts, 2 ≤ p.records.length ∧ p.records.length ≤ 4) :
    ∀ fc : List Cluster,
      (∀ c ∈ fc, 2 ≤ c.records.length ∧ c.records.length ≤ 4) →
      ∀ c ∈ parts.foldl (fun fc2 q =>
          if q.records.length > 1 then
            fc2 ++ [{ q with reasons := dedupKeepFirst (q.reasons ++ rrtag) }]
          else fc2) fc,
        2 ≤ c.records.length ∧ c.records.length ≤ 4 := by
  induction parts with
  | nil => intro fc h c hc; exact h c hc
  | cons q qs ihq =>
    intro fc h c hc
    rw [List.foldl_cons] at hc
    refine ihq (fun t ht => hparts t (by simp [ht])) _ ?_ c hc
    by_cases hq1 : q.records.length > 1
    · rw [if_pos hq1]
      intro d hd
      rcases List.mem_append.1 hd with hd | hd
      · exact h d hd
      · rw [List.mem_singleton] at hd
        subst hd
        exact hparts q (by simp)
    · rw [if_neg hq1]; exact h

/-- The leftover pass only appends splitter clusters (with rewritten
reasons). -/
theorem leftovers_fold_bounds (rows : List Row) (m : ℚ) (o : Opts)
    (rr : List (Nat × List String)) (leftovers : List (Nat × List Nat)) :
    ∀ fc : List Cluster,
      (∀ c ∈ fc, 2 ≤ c.records.length ∧ c.records.length ≤ 4) →
      ∀ c ∈ leftovers.foldl (fun fc p =>
          if p.2.length ≤ 1 then fc
          else
            let subRows := p.2.map (fun i => rows.getD i default)
            let parts := splitCluster subRows m o
            parts.foldl (fun fc2 q =>
              if q.records.length > 1 then
                fc2 ++ [{ q with
                  reasons := dedupKeepFirst (q.reasons ++ lookupD rr p.1 []) }]
              else fc2) fc) fc,
        2 ≤ c.records.length ∧ c.records.length ≤ 4 := by
  induction leftovers with
  | nil => intro fc h c hc; exact h c hc
  | cons p rest ih =>
    intro fc h c hc
    rw [List.foldl_cons] at hc
    refine ih _ ?_ c hc
    by_cases h1 : p.2.length ≤ 1
    · rw [if_pos h1]; exact h
    · rw [if_neg h1]
      try dsimp only
      exact leftover_inner_fold_bounds (lookupD rr p.1 []) _
        (splitCluster_bounds (p.2.map (fun i => rows.getD i default)) m o) fc h

/-- C2: every cluster the clustering pipeline returns has at least 2 and
at most 4 records; no stage emits a singleton or an oversized cluster. -/
theorem c2_cluster_size_bounds (raws : List RawRecord) (o : Opts) :
    ∀ c ∈ (runClustering raws o).clusters,
      2 ≤ c.records.length ∧ c.records.length ≤ 4 := by
  intro c hc
  unfold runClustering at hc
  dsimp only at hc
  rw [List.mem_filter] at hc
  obtain ⟨hmem, _⟩ := hc
  rw [List.mem_map] at hmem
  obtain ⟨c0, hc0, hEq⟩ := hmem
  have hbounds : 2 ≤ c0.records.length ∧ c0.records.length ≤ 4 := by
    refine leftovers_fold_bounds _ _ o _ _ _ ?_ c0 hc0
    exact edges_fold_bounds _ _ o _ _ (fun d hd => absurd hd (List.not_mem_nil d))
  subst hEq
  dsimp only
  rw [List.length_map]
  exact hbounds

/-! ## C7 development: idempotence of the normalizer. -/

theorem toNat_ofNat_small (n : Nat) (h : n < 55296) : (Char.ofNat n).toNat = n := by
  rw [Char.ofNat, dif_pos (Or.inl h)]
  rfl

theorem char_le_iff (a b : Char) : a ≤ b ↔ a.toNat ≤ b.toNat := Iff.rfl

theorem isJsWs_eq_false_of_range (c : Char) (h1 : 33 ≤ c.toNat) (h2 : c.toNat ≤ 122) :
    isJsWs c = false := by
  unfold isJsWs
  simp only [Bool.or_eq_false_iff, Bool.and_eq_false_iff, decide_eq_false_iff_not]
  omega

theorem isDiacritic_eq_false_of_range (c : Char) (h2 : c.toNat ≤ 122) :
    isDiacritic c = false := by
  unfold isDiacritic
  simp only [Bool.or_eq_false_iff, Bool.and_eq_false_iff, decide_eq_false_iff_not]
  omega

theorem foldChar_of_ascii (c : Char) (h : c.toNat ≤ 122) : foldChar c = c := by
  have h1 : c ≠ 'آ' := fun he => absurd (he ▸ h) (by decide)
  have h2 : c ≠ 'أ' := fun he => absurd (he ▸ h) (by decide)
  have h3 : c ≠ 'إ' := fun he => absurd (he ▸ h) (by decide)
  have h4 : c ≠ 'ؤ' := fun he => absurd (he ▸ h) (by decide)
  have h5 : c ≠ 'ئ' := fun he => absurd (he ▸ h) (by decide)
  have h6 : c ≠ 'ة' := fun he => absurd (he ▸ h) (by decide)
  unfold foldChar
  rw [if_neg (by simp [h1, h2, h3]), if_neg (by simp [h4]), if_neg (by simp [h5]),
    if_neg (by simp [h6])]

theorem foldChar_cases (c : Char) :
    foldChar c = 'ا' ∨ foldChar c = 'و' ∨ foldChar c = 'ي' ∨ foldChar c = 'ه' ∨
      foldChar c = c := by
  unfold foldChar
  split_ifs <;> simp

theorem foldChar_idem (c : Char) : foldChar (foldChar c) = foldChar c := by
  rcases foldChar_cases c with h | h | h | h | h <;> rw [h]
  · decide
  · decide
  · decide
  · decide
  · exact h

theorem foldChar_not_diacritic (c : Char) (hc : isDiacritic c = false) :
    isDiacritic (foldChar c) = false := by
  rcases foldChar_cases c with h | h | h | h | h <;> rw [h]
  · decide
  · decide
  · decide
  · decide
  · exact hc

theorem filtChar_out (c d : Char) (h : filtChar c = some d) : filtChar d = some d := by
  unfold filtChar at h
  by_cases hd : isDiacritic c = true
  · rw [if_pos hd] at h
    exact absurd h (by simp)
  · rw [if_neg hd] at h
    simp only [Option.some.injEq] at h
    by_cases hk : isKept (foldChar c) = true
    · rw [if_pos hk] at h
      subst h
      unfold filtChar
      rw [if_neg (by rw [foldChar_not_diacritic c (by simpa using hd)]; simp)]
      show some (if isKept (foldChar (foldChar c)) = true then foldChar (foldChar c) else ' ') =
        some (foldChar c)
      rw [foldChar_idem, if_pos hk]
    · rw [if_neg hk] at h
      subst h
      decide

theorem step123_stable (l : Str) : ∀ d ∈ step123 l, filtChar d = some d := by
  intro d hd
  unfold step123 at hd
  rcases List.mem_filterMap.1 hd with ⟨c, _, hf⟩
  exact filtChar_out c d hf

theorem step123_id (l : Str) (h : ∀ d ∈ l, filtChar d = some d) : step123 l = l := by
  induction l with
  | nil => rfl
  | cons x xs ih =>
    show List.filterMap filtChar (x :: xs) = x :: xs
    rw [List.filterMap_cons, h x (by simp)]
    exact congrArg (x :: ·) (ih (fun d hd => h d (by simp [hd])))

theorem mem_joinSp (c : Char) : ∀ ws : List Str, c ∈ joinSp ws →
    (∃ w ∈ ws, c ∈ w) ∨ c = ' ' := by
  intro ws
  induction ws with
  | nil => intro h; exact absurd h (List.not_mem_nil c)
  | cons w rest ih =>
    cases rest with
    | nil => intro h; exact Or.inl ⟨w, by simp, h⟩
    | cons w2 rs =>
      intro h
      have h2 : c ∈ w ∨ c = ' ' ∨ c ∈ joinSp (w2 :: rs) := by simpa [joinSp] using h
      rcases h2 with h | h | h
      · exact Or.inl ⟨w, by simp, h⟩
      · exact Or.inr h
      · rcases ih h with ⟨w3, hw3, hc2⟩ | h
        · exact Or.inl ⟨w3, by simp [hw3], hc2⟩
        · exact Or.inr h

theorem wordsAux_chars : ∀ (l acc : Str), (∀ c ∈ acc, isJsWs c = false) →
    ∀ w ∈ wordsAux l acc, ∀ c ∈ w, (c ∈ l ∨ c ∈ acc) ∧ isJsWs c = false := by
  intro l
  induction l with
  | nil =>
    intro acc hacc w hw c hc
    unfold wordsAux at hw
    by_cases ha : acc = []
    · rw [if_pos ha] at hw
      exact absurd hw (List.not_mem_nil w)
    · rw [if_neg ha] at hw
      rw [List.mem_singleton] at hw
      subst hw
      have hc2 : c ∈ acc := List.mem_reverse.1 hc
      exact ⟨Or.inr hc2, hacc c hc2⟩
  | cons x xs ih =>
    intro acc hacc w hw c hc
    unfold wordsAux at hw
    by_cases hx : isJsWs x = true
    · rw [if_pos hx] at hw
      by_cases ha : acc = []
      · rw [if_pos ha] at hw
        have := ih [] (by simp) w hw c hc
        rcases this with ⟨h1 | h1, h2⟩
        · exact ⟨Or.inl (by simp [h1]), h2⟩
        · exact absurd h1 (List.not_mem_nil c)
      · rw [if_neg ha] at hw
        rcases List.mem_cons.1 hw with hw | hw
        · subst hw
          have hc2 : c ∈ acc := List.mem_reverse.1 hc
          exact ⟨Or.inr hc2, hacc c hc2⟩
        · have := ih [] (by simp) w hw c hc
          rcases this with ⟨h1 | h1, h2⟩
          · exact ⟨Or.inl (by simp [h1]), h2⟩
          · exact absurd h1 (List.not_mem_nil c)
    · rw [if_neg hx] at hw
      have hacc2 : ∀ d ∈ x :: acc, isJsWs d = false := by
        intro d hd
        rcases List.mem_cons.1 hd with hd | hd
        · subst hd; simpa using hx
        · exact hacc d hd
      have := ih (x :: acc) hacc2 w hw c hc
      rcases this with ⟨h1 | h1, h2⟩
      · exact ⟨Or.inl (by simp [h1]), h2⟩
      · rcases List.mem_cons.1 h1 with h1 | h1
        · exact ⟨Or.inl (by simp [h1]), h2⟩
        · exact ⟨Or.inr h1, h2⟩

theorem wordsAux_ne_nil : ∀ (l acc : Str), ∀ w ∈ wordsAux l acc, w ≠ [] := by
  intro l
  induction l with
  | nil =>
    intro acc w hw
    unfold wordsAux at hw
    by_cases ha : acc = []
    · rw [if_pos ha] at hw
      exact absurd hw (List.not_mem_nil w)
    · rw [if_neg ha] at hw
      rw [List.mem_singleton] at hw
      subst hw
      simpa using ha
  | cons x xs ih =>
    intro acc w hw
    unfold wordsAux at hw
    by_cases hx : isJsWs x = true
    · rw [if_pos hx] at hw
      by_cases ha : acc = []
      · rw [if_pos ha] at hw
        exact ih [] w hw
      · rw [if_neg ha] at hw
        rcases List.mem_cons.1 hw with hw | hw
        · subst hw; simpa using ha
        · exact ih [] w hw
    · rw [if_neg hx] at hw
      exact ih (x :: acc) w hw

theorem mem_collapseWs (l : Str) (c : Char) (h : c ∈ collapseWs l) : c ∈ l ∨ c = ' ' := by
  unfold collapseWs at h
  rcases mem_joinSp c (wordsOf l) h with ⟨w, hw, hc⟩ | h
  · exact Or.inl ((wordsAux_chars l [] (by simp) w hw c hc).1.elim id
      (fun h => absurd h (List.not_mem_nil c)))
  · exact Or.inr h

theorem wordsAux_nil_eq (acc : Str) :
    wordsAux [] acc = if acc = [] then [] else [acc.reverse] := rfl

theorem wordsAux_cons_eq (c : Char) (cs acc : Str) : wordsAux (c :: cs) acc =
    if isJsWs c = true then
      (if acc = [] then wordsAux cs [] else acc.reverse :: wordsAux cs [])
    else wordsAux cs (c :: acc) := rfl

theorem wordsAux_no_ws : ∀ (l acc : Str), (∀ c ∈ l, isJsWs c = false) →
    wordsAux l acc = if acc.reverse ++ l = [] then [] else [acc.reverse ++ l] := by
  intro l
  induction l with
  | nil =>
    intro acc _
    rw [wordsAux_nil_eq]
    by_cases ha : acc = []
    · rw [if_pos ha, if_pos (by simp [ha])]
    · rw [if_neg ha, if_neg (by simp [ha])]
      simp
  | cons x xs ih =>
    intro acc hl
    rw [wordsAux_cons_eq]
    rw [if_neg (by simp [hl x (by simp)])]
    rw [ih (x :: acc) (fun c hc => hl c (by simp [hc]))]
    have hrv : (x :: acc).reverse ++ xs = acc.reverse ++ (x :: xs) := by
      simp
    rw [hrv]

theorem wordsAux_word_break : ∀ (w t acc : Str), (∀ c ∈ w, isJsWs c = false) →
    wordsAux (w ++ ' ' :: t) acc =
      if acc.reverse ++ w = [] then wordsAux t []
      else (acc.reverse ++ w) :: wordsAux t [] := by
  intro w
  induction w with
  | nil =>
    intro t acc _
    show wordsAux (' ' :: t) acc = _
    rw [wordsAux_cons_eq]
    rw [if_pos (by decide)]
    by_cases ha : acc = []
    · rw [if_pos ha, if_pos (by simp [ha])]
    · rw [if_neg ha, if_neg (by simp [ha])]
      simp
  | cons x xs ih =>
    intro t acc hw
    show wordsAux (x :: (xs ++ ' ' :: t)) acc = _
    rw [wordsAux_cons_eq]
    rw [if_neg (by simp [hw x (by simp)])]
    rw [ih t (x :: acc) (fun c hc => hw c (by simp [hc]))]
    have hrv : (x :: acc).reverse ++ xs = acc.reverse ++ (x :: xs) := by simp
    rw [hrv]

theorem wordsOf_joinSp : ∀ ws : List Str,
    (∀ w ∈ ws, w ≠ [] ∧ ∀ c ∈ w, isJsWs c = false) → wordsOf (joinSp ws) = ws := by
  intro ws
  induction ws with
  | nil => intro _; rfl
  | cons w rest ih =>
    cases rest with
    | nil =>
      intro h
      show wordsOf w = [w]
      unfold wordsOf
      rw [wordsAux_no_ws w [] (h w (by simp)).2]
      rw [if_neg (by simpa using (h w (by simp)).1)]
      simp
    | cons w2 rs =>
      intro h
      show wordsOf (w ++ ' ' :: joinSp (w2 :: rs)) = _
      unfold wordsOf
      rw [wordsAux_word_break w (joinSp (w2 :: rs)) [] (h w (by simp)).2]
      rw [if_neg (by simpa using (h w (by simp)).1)]
      have := ih (fun v hv => h v (by simp [hv]))
      unfold wordsOf at this
      rw [this]
      simp

theorem collapseWs_collapseWs (l : Str) : collapseWs (collapseWs l) = collapseWs l := by
  show collapseWs (joinSp (wordsOf l)) = joinSp (wordsOf l)
  unfold collapseWs
  rw [wordsOf_joinSp (wordsOf l) (fun w hw => ⟨wordsAux_ne_nil l [] w hw,
    fun c hc => (wordsAux_chars l [] (by simp) w hw c hc).2⟩)]

theorem wordsAux_map (f : Char → Char) (hf : ∀ c, isJsWs (f c) = isJsWs c) :
    ∀ (l acc : Str), wordsAux (l.map f) (acc.map f) =
      (wordsAux l acc).map (fun w => w.map f) := by
  intro l
  induction l with
  | nil =>
    intro acc
    show wordsAux [] (acc.map f) = _
    rw [wordsAux_nil_eq, wordsAux_nil_eq]
    by_cases ha : acc = []
    · rw [if_pos (by simp [ha]), if_pos ha]
      rfl
    · rw [if_neg (by simp [ha]), if_neg ha]
      simp
  | cons x xs ih =>
    intro acc
    show wordsAux (f x :: xs.map f) (acc.map f) = _
    rw [wordsAux_cons_eq, wordsAux_cons_eq]
    rw [hf x]
    by_cases hx : isJsWs x = true
    · rw [if_pos hx, if_pos hx]
      by_cases ha : acc = []
      · rw [if_pos (by simp [ha]), if_pos ha]
        have := ih []
        simpa using this
      · rw [if_neg (by simp [ha]), if_neg ha]
        have := ih []
        simp only [List.map_nil] at this
        rw [this]
        simp
    · rw [if_neg hx, if_neg hx]
      have := ih (x :: acc)
      simpa using this

theorem joinSp_map (f : Char → Char) (hsp : f ' ' = ' ') :
    ∀ ws : List Str, joinSp (ws.map (fun w => w.map f)) = (joinSp ws).map f := by
  intro ws
  induction ws with
  | nil => rfl
  | cons w rest ih =>
    cases rest with
    | nil => rfl
    | cons w2 rs =>
      show (w.map f) ++ ' ' :: joinSp ((w2 :: rs).map (fun w => w.map f)) = _
      rw [ih]
      show _ = (w ++ ' ' :: joinSp (w2 :: rs)).map f
      rw [List.map_append, List.map_cons, hsp]

theorem collapseWs_map (f : Char → Char) (hf : ∀ c, isJsWs (f c) = isJsWs c)
    (hsp : f ' ' = ' ') (l : Str) : collapseWs (l.map f) = (collapseWs l).map f := by
  unfold collapseWs wordsOf
  have := wordsAux_map f hf l []
  simp only [List.map_nil] at this
  rw [this, joinSp_map f hsp]

theorem lowerChar_space : lowerChar ' ' = ' ' := by decide

theorem lowerChar_bounds (c : Char) (hc : ('A' ≤ c && c ≤ 'Z') = true) :
    65 ≤ c.toNat ∧ c.toNat ≤ 90 := by
  simp only [Bool.and_eq_true, decide_eq_true_eq, char_le_iff] at hc
  exact hc

theorem lowerChar_toNat_upper (c : Char) (hc : ('A' ≤ c && c ≤ 'Z') = true) :
    (lowerChar c).toNat = c.toNat + 32 := by
  have hb := lowerChar_bounds c hc
  unfold lowerChar
  rw [if_pos hc]
  exact toNat_ofNat_small (c.toNat + 32) (by omega)

theorem lowerChar_id_of_not_upper (c : Char) (hc : ¬('A' ≤ c && c ≤ 'Z') = true) :
    lowerChar c = c := by
  unfold lowerChar
  rw [if_neg hc]

theorem lowerChar_ws (c : Char) : isJsWs (lowerChar c) = isJsWs c := by
  by_cases hc : ('A' ≤ c && c ≤ 'Z') = true
  · have hb := lowerChar_bounds c hc
    have h1 := lowerChar_toNat_upper c hc
    rw [isJsWs_eq_false_of_range _ (by omega) (by omega),
      isJsWs_eq_false_of_range _ (by omega) (by omega)]
  · rw [lowerChar_id_of_not_upper c hc]

theorem lowerChar_idem (c : Char) : lowerChar (lowerChar c) = lowerChar c := by
  by_cases hc : ('A' ≤ c && c ≤ 'Z') = true
  · have h1 := lowerChar_toNat_upper c hc
    have hb := lowerChar_bounds c hc
    apply lowerChar_id_of_not_upper
    simp only [Bool.and_eq_true, decide_eq_true_eq, char_le_iff]
    intro hcon
    have : (lowerChar c).toNat ≤ 90 := by
      simpa [show ('Z').toNat = 90 from rfl] using hcon.2
    omega
  · rw [lowerChar_id_of_not_upper c hc, lowerChar_id_of_not_upper c hc]

theorem isKept_lower_ascii (c : Char) (h1 : 97 ≤ c.toNat) (h2 : c.toNat ≤ 122) :
    isKept c = true := by
  unfold isKept
  simp only [Bool.or_eq_true, Bool.and_eq_true, decide_eq_true_eq, char_le_iff]
  refine Or.inl (Or.inr ⟨?_, ?_⟩)
  · simpa [show ('a').toNat = 97 from rfl] using h1
  · simpa [show ('z').toNat = 122 from rfl] using h2

theorem lowerChar_stable (c : Char) (h : filtChar c = some c) :
    filtChar (lowerChar c) = some (lowerChar c) := by
  by_cases hc : ('A' ≤ c && c ≤ 'Z') = true
  · have h1 := lowerChar_toNat_upper c hc
    have hb := lowerChar_bounds c hc
    unfold filtChar
    rw [if_neg (by rw [isDiacritic_eq_false_of_range _ (by omega)]; simp)]
    show some (if isKept (foldChar (lowerChar c)) = true then foldChar (lowerChar c) else ' ') =
      some (lowerChar c)
    rw [foldChar_of_ascii _ (by omega)]
    rw [if_pos (isKept_lower_ascii _ (by omega) (by omega))]
  · rw [lowerChar_id_of_not_upper c hc]
    exact h

theorem postNorm_stable (l : Str) : ∀ d ∈ postNorm l, filtChar d = some d := by
  intro d hd
  unfold postNorm at hd
  rcases List.mem_map.1 hd with ⟨e, he, hEq⟩
  subst hEq
  rcases mem_collapseWs _ _ he with he2 | hsp
  · exact lowerChar_stable _ (step123_stable _ _ he2)
  · subst hsp
    exact lowerChar_stable _ (by decide)

theorem collapseWs_postNorm (l : Str) : collapseWs (postNorm l) = postNorm l := by
  unfold postNorm
  rw [collapseWs_map lowerChar lowerChar_ws lowerChar_space, collapseWs_collapseWs]

theorem postNorm_idem (l : Str) : postNorm (postNorm l) = postNorm l := by
  conv_lhs => rw [postNorm]
  rw [step123_id _ (postNorm_stable l), collapseWs_postNorm]
  show (postNorm l).map lowerChar = postNorm l
  unfold postNorm
  rw [List.map_map]
  exact List.map_congr_left (fun a _ => lowerChar_idem a)

/-- C7: the normalizer is idempotent. The post-NFKC pipeline is idempotent
outright, so whenever the platform NFKC implementation leaves
already-normalized output unchanged (it is the identity on the normalized
alphabet), the full normalizer satisfies normalize (normalize s) =
normalize s for every string s. -/
theorem c7_normalizer_idempotent (nfkc : Str → Str)
    (hstable : ∀ t, nfkc (postNorm t) = postNorm t) (s : Str) :
    normalizeArabicRaw nfkc (normalizeArabicRaw nfkc s) = normalizeArabicRaw nfkc s := by
  unfold normalizeArabicRaw
  rw [hstable (nfkc s), postNorm_idem]

/-- Witness for C7 at the pipeline instantiation (identity NFKC) on a
concrete mixed-case string with irregular whitespace. -/
theorem c7_witness :
    normalizeArabicRaw id (normalizeArabicRaw id (str "  Abc  DEF ")) =
      normalizeArabicRaw id (str "  Abc  DEF ") :=
  c7_normalizer_idempotent id (fun _ => rfl) (str "  Abc  DEF ")

/-! ## C8: the DUPLICATE_ID audit rule -/

theorem list_contains_iff {α : Type} [DecidableEq α] (l : List α) (x : α) :
    l.contains x = true ↔ x ∈ l := List.elem_iff

theorem dedupSeen_cons {α : Type} [DecidableEq α] (seen : List α) (x : α) (xs : List α) :
    dedupSeen seen (x :: xs) =
      if seen.contains x then dedupSeen seen xs
      else x :: dedupSeen (seen ++ [x]) xs := rfl

theorem mem_dedupSeen {α : Type} [DecidableEq α] (y : α) :
    ∀ (l seen : List α), y ∈ dedupSeen seen l ↔ y ∈ l ∧ y ∉ seen := by
  intro l
  induction l with
  | nil => intro seen; simp [dedupSeen]
  | cons x xs ih =>
    intro seen
    rw [dedupSeen_cons]
    by_cases hx : seen.contains x = true
    · rw [if_pos hx]
      rw [ih seen]
      constructor
      · intro ⟨h1, h2⟩
        exact ⟨by simp [h1], h2⟩
      · intro ⟨h1, h2⟩
        rcases List.mem_cons.1 h1 with h1 | h1
        · subst h1
          exact absurd ((list_contains_iff seen y).1 hx) h2
        · exact ⟨h1, h2⟩
    · rw [if_neg hx]
      constructor
      · intro h
        rcases List.mem_cons.1 h with h | h
        · subst h
          refine ⟨by simp, ?_⟩
          intro hc
          exact hx ((list_contains_iff seen y).2 hc)
        · have := (ih (seen ++ [x])).1 h
          refine ⟨by simp [this.1], ?_⟩
          intro hc
          exact this.2 (by simp [hc])
      · intro ⟨h1, h2⟩
        rcases List.mem_cons.1 h1 with h1 | h1
        · subst h1
          exact List.mem_cons_self y _
        · by_cases hxy : y = x
          · subst hxy
            exact List.mem_cons_self y _
          · refine List.mem_cons_of_mem x ?_
            exact (ih (seen ++ [x])).2 ⟨h1, by simp [h2, hxy]⟩

theorem mem_dedupKeepFirst {α : Type} [DecidableEq α] (y : α) (l : List α) :
    y ∈ dedupKeepFirst l ↔ y ∈ l := by
  unfold dedupKeepFirst
  rw [mem_dedupSeen]
  simp

theorem keysOf_assocSet_mem {κ β : Type} [DecidableEq κ] (l : List (κ × β)) (k : κ) (v : β)
    (h : k ∈ keysOf l) : keysOf (assocSet l k v) = keysOf l := by
  induction l with
  | nil => exact absurd h (List.not_mem_nil k)
  | cons p rest ih =>
    by_cases hp : p.1 = k
    · show keysOf (if p.1 = k then (p.1, v) :: rest else p :: assocSet rest k v) = _
      rw [if_pos hp]
      rfl
    · show keysOf (if p.1 = k then (p.1, v) :: rest else p :: assocSet rest k v) = _
      rw [if_neg hp]
      have hk : k ∈ keysOf rest := by
        rcases List.mem_cons.1 h with h | h
        · exact absurd h.symm hp
        · exact h
      show p.1 :: keysOf (assocSet rest k v) = p.1 :: keysOf rest
      rw [ih hk]

theorem keysOf_assocSet_notMem {κ β : Type} [DecidableEq κ] (l : List (κ × β)) (k : κ) (v : β)
    (h : k ∉ keysOf l) : keysOf (assocSet l k v) = keysOf l ++ [k] := by
  induction l with
  | nil => rfl
  | cons p rest ih =>
    have hp : p.1 ≠ k := by
      intro he
      exact h (show k ∈ p.1 :: keysOf rest from by rw [he]; simp)
    show keysOf (if p.1 = k then (p.1, v) :: rest else p :: assocSet rest k v) = _
    rw [if_neg hp]
    show p.1 :: keysOf (assocSet rest k v) = (p.1 :: keysOf rest) ++ [k]
    rw [ih (fun hc => h (show k ∈ p.1 :: keysOf rest from List.mem_cons_of_mem _ hc))]
    rfl

theorem keysOf_groupAux {κ β : Type} [DecidableEq κ] (key : β → κ) :
    ∀ (l : List β) (acc : List (κ × List β)),
      keysOf (groupAux key acc l) = keysOf acc ++ dedupSeen (keysOf acc) (l.map key) := by
  intro l
  induction l with
  | nil => intro acc; simp [groupAux, dedupSeen]
  | cons x xs ih =>
    intro acc
    show keysOf (groupAux key (assocAppend acc (key x) x) xs) = _
    rw [List.map_cons, dedupSeen_cons]
    by_cases hk : key x ∈ keysOf acc
    · have hks : keysOf (assocAppend acc (key x) x) = keysOf acc :=
        keysOf_assocSet_mem _ _ _ hk
      rw [ih, hks, if_pos ((list_contains_iff _ _).2 hk)]
    · have hks : keysOf (assocAppend acc (key x) x) = keysOf acc ++ [key x] :=
        keysOf_assocSet_notMem _ _ _ hk
      rw [ih, hks, if_neg (fun hc => hk ((list_contains_iff _ _).1 hc))]
      simp

theorem keysOf_groupByKey {κ β : Type} [DecidableEq κ] (key : β → κ) (l : List β) :
    keysOf (groupByKey key l) = dedupKeepFirst (l.map key) := by
  unfold groupByKey dedupKeepFirst
  rw [keysOf_groupAux]
  rfl

theorem pairlist_ext {κ β : Type} (F : κ → β) :
    ∀ (l : List (κ × β)), (∀ p ∈ l, p.2 = F p.1) →
      l = (l.map Prod.fst).map (fun k => (k, F k)) := by
  intro l
  induction l with
  | nil => intro _; rfl
  | cons p rest ih =>
    intro h
    rw [List.map_cons, List.map_cons]
    have hp : p = (p.1, F p.1) := by
      have := h p (by simp)
      exact Prod.ext rfl this
    rw [← hp, ← ih (fun q hq => h q (by simp [hq]))]

/-- Full characterization of the grouping idiom: keys in first-occurrence
order, each key paired with the filter of the input at that key. -/
theorem groupByKey_eq {κ β : Type} [DecidableEq κ] (key : β → κ) (l : List β) :
    groupByKey key l =
      (dedupKeepFirst (l.map key)).map (fun k => (k, l.filter (fun x => key x = k))) := by
  have h1 := pairlist_ext (fun k => l.filter (fun x => key x = k)) (groupByKey key l)
    (fun p hp => by
      have := groupByKey_mem_eq_filter key l p.1 p.2 (by
        have : (p.1, p.2) = p := rfl
        rw [this]
        exact hp)
      exact this)
  rw [h1]
  show (keysOf (groupByKey key l)).map _ = _
  rw [keysOf_groupByKey]

theorem foldl_append_if {α β : Type} (f : List β → α → List β) (cond : α → Prop)
    [DecidablePred cond] (mk : α → β)
    (hf : ∀ fs p, f fs p = if cond p then fs ++ [mk p] else fs) :
    ∀ (l : List α) (init : List β),
      l.foldl f init = init ++ (l.filter (fun p => decide (cond p))).map mk := by
  intro l
  induction l with
  | nil => intro init; simp
  | cons x xs ih =>
    intro init
    rw [List.foldl_cons, hf init x, List.filter_cons]
    by_cases hx : cond x
    · rw [if_pos hx, ih]
      simp [hx]
    · rw [if_neg hx, ih]
      simp [hx]

theorem foldl_extends {α β : Type} (f : List β → α → List β) (g : α → List β)
    (hf : ∀ fs a, f fs a = fs ++ g a) :
    ∀ (l : List α) (init : List β), l.foldl f init = init ++ l.flatMap g := by
  intro l
  induction l with
  | nil => intro init; simp
  | cons x xs ih =>
    intro init
    rw [List.foldl_cons, hf init x, ih, List.flatMap_cons, List.append_assoc]

theorem foldl_filter_invariant {α β : Type} (P : β → Bool) (f : List β → α → List β)
    (hf : ∀ fs a, (f fs a).filter P = fs.filter P) :
    ∀ (l : List α) (init : List β), (l.foldl f init).filter P = init.filter P := by
  intro l
  induction l with
  | nil => intro init; rfl
  | cons x xs ih =>
    intro init
    rw [List.foldl_cons, ih, hf]

set_option maxHeartbeats 1000000 in
/-- C8: the DUPLICATE_ID findings of the audit are exactly one finding of
severity high per distinct non-empty trimmed national id that occurs on
more than one record across all clusters, in first-occurrence order, each
listing every record bearing that id; no other id yields such a finding. -/
theorem c8_duplicate_id_findings (clusters : List Cluster) :
    (runAuditOnClusters clusters).filter (fun f => f.ftype = "DUPLICATE_ID") =
      ((dedupKeepFirst ((((clusters.map (fun c => c.records)).flatten).filter
          (fun r => ¬(trimmedId r).isEmpty)).map trimmedId)).filter
        (fun tid => (((clusters.map (fun c => c.records)).flatten).filter
            (fun r => trimmedId r = tid)).length > 1)).map
        (fun tid =>
          { ftype := "DUPLICATE_ID", severity := "high",
            description := str "National ID " ++ tid ++ str " appears in " ++
              natStr (((clusters.map (fun c => c.records)).flatten).filter
                (fun r => trimmedId r = tid)).length ++ str " records.",
            records := ((clusters.map (fun c => c.records)).flatten).filter
              (fun r => trimmedId r = tid) }) := by
  unfold runAuditOnClusters
  dsimp only
  have hD := foldl_filter_invariant (fun f => f.ftype = "DUPLICATE_ID")
    (fun (fs : List Finding) (p : Str × List Row) =>
      if p.2.length > 1 then
        fs ++ [{ ftype := "DUPLICATE_COUPLE", severity := "medium",
                 description := str "Couple (" ++ p.1 ++ str ") appears " ++
                   natStr p.2.length ++ str " times.",
                 records := p.2 }]
      else fs)
    (by
      intro fs p
      dsimp only
      by_cases h : p.2.length > 1
      · rw [if_pos h, List.filter_append]
        simp
      · rw [if_neg h])
  rw [hD]
  have hC := foldl_filter_invariant (fun f => f.ftype = "DUPLICATE_ID")
    (fun (fs : List Finding) (c : Cluster) =>
      (pairsOf c.records).foldl
        (fun (fs2 : List Finding) pr =>
          if jaroWinkler pr.1.row.womanName pr.2.row.womanName ≥ 92 / 100 ∧
              jaroWinkler pr.1.row.husbandName pr.2.row.husbandName ≥ 9 / 10 then
            fs2 ++ [{ ftype := "HIGH_SIMILARITY", severity := "medium",
                      description := str "Records \"" ++ pr.1.row.womanName ++
                        str "\" and \"" ++ pr.2.row.womanName ++
                        str "\" have high similarity (name:" ++
                        toFixed2 (jaroWinkler pr.1.row.womanName pr.2.row.womanName) ++
                        str ", husband:" ++
                        toFixed2 (jaroWinkler pr.1.row.husbandName pr.2.row.husbandName) ++
                        str ").",
                      records := [pr.1, pr.2] }]
          else fs2) fs)
    (by
      intro fs c
      dsimp only
      refine foldl_filter_invariant _ _ ?_ (pairsOf c.records) fs
      intro fs2 pr
      dsimp only
      by_cases h : jaroWinkler pr.1.row.womanName pr.2.row.womanName ≥ 92 / 100 ∧
          jaroWinkler pr.1.row.husbandName pr.2.row.husbandName ≥ 9 / 10
      · rw [if_pos h, List.filter_append]
        simp
      · rw [if_neg h])
  rw [hC]
  have hB := foldl_filter_invariant (fun f => f.ftype = "DUPLICATE_ID")
    (fun (fs : List Finding) (p : Str × List Row) =>
      if (dedupKeepFirst
            ((p.2.map (fun r => jsTrim r.row.husbandName)).filter (fun h => ¬h.isEmpty))).length
          > 1 then
        fs ++ [{ ftype := "WOMAN_MULTIPLE_HUSBANDS", severity := "high",
                 description := p.1 ++ str " is associated with " ++
                   natStr (dedupKeepFirst ((p.2.map (fun r => jsTrim r.row.husbandName)).filter
                     (fun h => ¬h.isEmpty))).length ++ str " distinct husband names.",
                 records := p.2 }]
      else fs)
    (by
      intro fs p
      dsimp only
      by_cases h : (dedupKeepFirst
          ((p.2.map (fun r => jsTrim r.row.husbandName)).filter (fun h => ¬h.isEmpty))).length > 1
      · rw [if_pos h, List.filter_append]
        simp
      · rw [if_neg h])
  rw [hB]
  have hA := foldl_append_if
    (fun (fs : List Finding) (p : Str × List Row) =>
      if p.2.length > 1 then
        fs ++ [{ ftype := "DUPLICATE_ID", severity := "high",
                 description := str "National ID " ++ p.1 ++ str " appears in " ++
                   natStr p.2.length ++ str " records.",
                 records := p.2 }]
      else fs)
    (fun p => p.2.length > 1)
    (fun p => { ftype := "DUPLICATE_ID", severity := "high",
                description := str "National ID " ++ p.1 ++ str " appears in " ++
                  natStr p.2.length ++ str " records.",
                records := p.2 })
    (fun _ _ => rfl)
  rw [hA, List.nil_append]
  rw [List.filter_eq_self.2 (by
    intro b hb
    rcases List.mem_map.1 hb with ⟨p, _, hEq⟩
    subst hEq
    rfl)]
  rw [groupByKey_eq trimmedId]
  rw [List.filter_map, List.map_map]
  have hne : ∀ k ∈ dedupKeepFirst (((((clusters.map (fun c => c.records)).flatten).filter
      (fun r => ¬(trimmedId r).isEmpty)).map trimmedId)), k.isEmpty = false := by
    intro k hk
    rw [mem_dedupKeepFirst] at hk
    rcases List.mem_map.1 hk with ⟨r, hr, hEq⟩
    subst hEq
    have h2 := (List.mem_filter.1 hr).2
    simpa using h2
  have hG : ∀ k : Str, k.isEmpty = false →
      (((clusters.map (fun c => c.records)).flatten).filter
          (fun r => ¬(trimmedId r).isEmpty)).filter (fun r => trimmedId r = k) =
        ((clusters.map (fun c => c.records)).flatten).filter (fun r => trimmedId r = k) := by
    intro k hk
    rw [List.filter_filter]
    apply List.filter_congr
    intro r _
    by_cases h : trimmedId r = k
    · simp [h, hk]
    · simp [h]
  have hfil :
      List.filter ((fun p : Str × List Row => decide ((fun p : Str × List Row =>
          p.2.length > 1) p)) ∘ fun k =>
        (k, List.filter (fun x => trimmedId x = k)
          (List.filter (fun r => ¬(trimmedId r).isEmpty)
            (List.map (fun c => c.records) clusters).flatten)))
        (dedupKeepFirst (List.map trimmedId
          (List.filter (fun r => ¬(trimmedId r).isEmpty)
            (List.map (fun c => c.records) clusters).flatten))) =
      List.filter (fun tid => decide ((List.filter (fun r => trimmedId r = tid)
          (List.map (fun c => c.records) clusters).flatten).length > 1))
        (dedupKeepFirst (List.map trimmedId
          (List.filter (fun r => ¬(trimmedId r).isEmpty)
            (List.map (fun c => c.records) clusters).flatten))) := by
    apply List.filter_congr
    intro k hk
    simp only [Function.comp]
    try dsimp only
    rw [hG k (hne k hk)]
  rw [hfil]
  apply List.map_congr_left
  intro k hk
  have hk2 := (List.mem_filter.1 hk).1
  simp only [Function.comp]
  try dsimp only
  rw [hG k (hne k hk2)]

/-! ## C6: symmetry of the scorer. First, the Jaro matcher loops. -/

theorem jwScan_succ (ai : Char) (b : Str) (used : List Nat) (stop j fuel : Nat) :
    jwScan ai b used stop j (fuel + 1) =
      if j < stop then
        (if used.contains j then jwScan ai b used stop (j + 1) fuel
         else if b.getD j ' ' = ai then some j
         else jwScan ai b used stop (j + 1) fuel)
      else none := rfl

theorem jwScan_some_spec (ai : Char) (b : Str) (used : List Nat) (stop : Nat) :
    ∀ (fuel j j0 : Nat), jwScan ai b used stop j fuel = some j0 →
      j ≤ j0 ∧ j0 < stop ∧ used.contains j0 = false ∧ b.getD j0 ' ' = ai ∧
      ∀ j2, j ≤ j2 → j2 < j0 → used.contains j2 = true ∨ ¬b.getD j2 ' ' = ai := by
  intro fuel
  induction fuel with
  | zero => intro j j0 h; exact absurd h (by simp [jwScan])
  | succ fuel ih =>
    intro j j0 h
    rw [jwScan_succ] at h
    by_cases h1 : j < stop
    · rw [if_pos h1] at h
      by_cases h2 : used.contains j = true
      · rw [if_pos h2] at h
        have hrec := ih (j + 1) j0 h
        refine ⟨by omega, hrec.2.1, hrec.2.2.1, hrec.2.2.2.1, ?_⟩
        intro j2 hj2 hj2b
        by_cases hjj : j2 = j
        · subst hjj; exact Or.inl h2
        · exact hrec.2.2.2.2 j2 (by omega) hj2b
      · rw [if_neg h2] at h
        by_cases h3 : b.getD j ' ' = ai
        · rw [if_pos h3] at h
          injection h with h
          subst h
          exact ⟨le_refl _, h1, by simpa using h2, h3,
            fun j2 hj2 hj2b => absurd (Nat.lt_of_le_of_lt hj2 hj2b) (Nat.lt_irrefl j)⟩
        · rw [if_neg h3] at h
          have hrec := ih (j + 1) j0 h
          refine ⟨by omega, hrec.2.1, hrec.2.2.1, hrec.2.2.2.1, ?_⟩
          intro j2 hj2 hj2b
          by_cases hjj : j2 = j
          · subst hjj; exact Or.inr h3
          · exact hrec.2.2.2.2 j2 (by omega) hj2b
    · rw [if_neg h1] at h
      exact absurd h (by simp)

theorem jwScan_none_spec (ai : Char) (b : Str) (used : List Nat) (stop : Nat) :
    ∀ (fuel j : Nat), stop ≤ j + fuel → jwScan ai b used stop j fuel = none →
      ∀ j2, j ≤ j2 → j2 < stop → used.contains j2 = true ∨ ¬b.getD j2 ' ' = ai := by
  intro fuel
  induction fuel with
  | zero =>
    intro j hle _ j2 hj2 hj2b
    omega
  | succ fuel ih =>
    intro j hle h j2 hj2 hj2b
    rw [jwScan_succ] at h
    by_cases h1 : j < stop
    · rw [if_pos h1] at h
      by_cases h2 : used.contains j = true
      · rw [if_pos h2] at h
        by_cases hjj : j2 = j
        · subst hjj; exact Or.inl h2
        · exact ih (j + 1) (by omega) h j2 (by omega) hj2b
      · rw [if_neg h2] at h
        by_cases h3 : b.getD j ' ' = ai
        · rw [if_pos h3] at h
          exact absurd h (by simp)
        · rw [if_neg h3] at h
          by_cases hjj : j2 = j
          · subst hjj; exact Or.inr h3
          · exact ih (j + 1) (by omega) h j2 (by omega) hj2b
    · omega

theorem jwFindJ_some (ai : Char) (b : Str) (used : List Nat) (j stop j0 : Nat)
    (h : jwFindJ ai b used j stop = some j0) :
    j ≤ j0 ∧ j0 < stop ∧ used.contains j0 = false ∧ b.getD j0 ' ' = ai ∧
    ∀ j2, j ≤ j2 → j2 < j0 → used.contains j2 = true ∨ ¬b.getD j2 ' ' = ai :=
  jwScan_some_spec ai b used stop (stop - j) j j0 h

theorem jwFindJ_none (ai : Char) (b : Str) (used : List Nat) (j stop : Nat)
    (h : jwFindJ ai b used j stop = none) :
    ∀ j2, j ≤ j2 → j2 < stop → used.contains j2 = true ∨ ¬b.getD j2 ' ' = ai :=
  jwScan_none_spec ai b used stop (stop - j) j (by omega) h

/-- The lower end of the Jaro match window of row i. -/
def jwLo (d : Int) (i : Nat) : Nat := (max 0 ((i : Int) - d)).toNat

/-- The upper end (exclusive) of the Jaro match window of row i against
the other string. -/
def jwHi (b : Str) (d : Int) (i : Nat) : Nat := (min ((i : Int) + d + 1) (b.length : Int)).toNat

theorem jwHi_le (b : Str) (d : Int) (i : Nat) : jwHi b d i ≤ b.length := by
  unfold jwHi
  rw [Int.toNat_le]
  exact min_le_right _ _

theorem win_iff (a b : Str) (d : Int) (i j : Nat) (hi : i < a.length) (hj : j < b.length) :
    (jwLo d i ≤ j ∧ j < jwHi b d i) ↔ (jwLo d j ≤ i ∧ i < jwHi a d j) := by
  simp only [jwLo, jwHi, Int.toNat_le, Int.lt_toNat, max_le_iff, lt_min_iff]
  omega

/-- Loop invariant of the greedy Jaro matcher over the rows below k:
every stored pair is a valid in-window character match, rows appear
strictly increasing, no column repeats, each row match is the least free
matching column of its window, and every unmatched processed row has all
its matching window columns taken by earlier rows. -/
structure JwState (a b : Str) (d : Int) (ps : List (Nat × Nat)) (k : Nat) : Prop where
  bounds : ∀ p ∈ ps, p.1 < k ∧ p.1 < a.length ∧ jwLo d p.1 ≤ p.2 ∧ p.2 < jwHi b d p.1 ∧
    b.getD p.2 ' ' = a.getD p.1 ' '
  sorted : List.Pairwise (fun p q : Nat × Nat => p.1 < q.1) ps
  colInj : ∀ p ∈ ps, ∀ q ∈ ps, p.2 = q.2 → p = q
  rowMin : ∀ p ∈ ps, ∀ j2, jwLo d p.1 ≤ j2 → j2 < jwHi b d p.1 → j2 < p.2 →
    b.getD j2 ' ' = a.getD p.1 ' ' → ∃ i2, i2 < p.1 ∧ (i2, j2) ∈ ps
  rowSat : ∀ i, i < k → i ∉ ps.map Prod.fst → ∀ j, jwLo d i ≤ j → j < jwHi b d i →
    b.getD j ' ' = a.getD i ' ' → ∃ i2, i2 < i ∧ (i2, j) ∈ ps

theorem jwGo_succ (a b : Str) (d : Int) (i fuel : Nat) (ps : List (Nat × Nat)) :
    jwGo a b d i (fuel + 1) ps =
      match jwFindJ (a.getD i ' ') b (ps.map Prod.snd) (jwLo d i) (jwHi b d i) with
      | some j => jwGo a b d (i + 1) fuel (ps ++ [(i, j)])
      | none => jwGo a b d (i + 1) fuel ps := rfl

theorem jwState_step_some (a b : Str) (d : Int) (i : Nat) (ps : List (Nat × Nat))
    (hst : JwState a b d ps i) (hla : i < a.length) (j : Nat)
    (hfind : jwFindJ (a.getD i ' ') b (ps.map Prod.snd) (jwLo d i) (jwHi b d i) = some j) :
    JwState a b d (ps ++ [(i, j)]) (i + 1) := by
  obtain ⟨hlo, hhi, hused, hchar, hmin⟩ := jwFindJ_some _ _ _ _ _ _ hfind
  have hnotUsed : j ∉ ps.map Prod.snd := by
    intro hc
    rw [← list_contains_iff (ps.map Prod.snd) j] at hc
    rw [hused] at hc
    exact absurd hc (by simp)
  refine ⟨?_, ?_, ?_, ?_, ?_⟩
  · intro p hp
    rcases List.mem_append.1 hp with hp | hp
    · have h0 := hst.bounds p hp
      exact ⟨by omega, h0.2.1, h0.2.2.1, h0.2.2.2.1, h0.2.2.2.2⟩
    · rw [List.mem_singleton] at hp
      subst hp
      exact ⟨by omega, hla, hlo, hhi, hchar⟩
  · rw [List.pairwise_append]
    refine ⟨hst.sorted, by simp, ?_⟩
    intro p hp q hq
    rw [List.mem_singleton] at hq
    subst hq
    exact (hst.bounds p hp).1
  · intro p hp q hq heq
    rcases List.mem_append.1 hp with hp | hp <;> rcases List.mem_append.1 hq with hq | hq
    · exact hst.colInj p hp q hq heq
    · rw [List.mem_singleton] at hq
      subst hq
      exact absurd (List.mem_map.2 ⟨p, hp, heq⟩) hnotUsed
    · rw [List.mem_singleton] at hp
      subst hp
      exact absurd (List.mem_map.2 ⟨q, hq, heq.symm⟩) hnotUsed
    · rw [List.mem_singleton] at hp hq
      subst hp
      subst hq
      rfl
  · intro p hp j2 h1 h2 h3 h4
    rcases List.mem_append.1 hp with hp | hp
    · obtain ⟨i2, hi2, hmem⟩ := hst.rowMin p hp j2 h1 h2 h3 h4
      exact ⟨i2, hi2, List.mem_append_left _ hmem⟩
    · rw [List.mem_singleton] at hp
      subst hp
      rcases hmin j2 h1 h3 with hu | hnc
      · rw [list_contains_iff] at hu
        obtain ⟨q, hq, hq2⟩ := List.mem_map.1 hu
        refine ⟨q.1, (hst.bounds q hq).1, List.mem_append_left _ ?_⟩
        have : q = (q.1, j2) := by
          rw [← hq2]
        rw [← this]
        exact hq
      · exact absurd h4 hnc
  · intro i2 hi2 hnotin j2 h1 h2 h3
    by_cases hii : i2 = i
    · subst hii
      exfalso
      exact hnotin (by simp)
    · have hi2' : i2 < i := by omega
      have hnotin2 : i2 ∉ ps.map Prod.fst := by
        intro hc
        exact hnotin (by simp [hc])
      obtain ⟨i3, hi3, hmem⟩ := hst.rowSat i2 hi2' hnotin2 j2 h1 h2 h3
      exact ⟨i3, hi3, List.mem_append_left _ hmem⟩

theorem jwState_step_none (a b : Str) (d : Int) (i : Nat) (ps : List (Nat × Nat))
    (hst : JwState a b d ps i)
    (hfind : jwFindJ (a.getD i ' ') b (ps.map Prod.snd) (jwLo d i) (jwHi b d i) = none) :
    JwState a b d ps (i + 1) := by
  have hall := jwFindJ_none _ _ _ _ _ hfind
  refine ⟨?_, hst.sorted, hst.colInj, hst.rowMin, ?_⟩
  · intro p hp
    have h0 := hst.bounds p hp
    exact ⟨by omega, h0.2.1, h0.2.2.1, h0.2.2.2.1, h0.2.2.2.2⟩
  · intro i2 hi2 hnotin j2 h1 h2 h3
    by_cases hii : i2 = i
    · subst hii
      rcases hall j2 h1 h2 with hu | hnc
      · rw [list_contains_iff] at hu
        obtain ⟨q, hq, hq2⟩ := List.mem_map.1 hu
        refine ⟨q.1, (hst.bounds q hq).1, ?_⟩
        have : q = (q.1, j2) := by
          rw [← hq2]
        rw [← this]
        exact hq
      · exact absurd h3 hnc
    · exact hst.rowSat i2 (by omega) hnotin j2 h1 h2 h3

theorem jwGo_state (a b : Str) (d : Int) :
    ∀ (fuel i : Nat) (ps : List (Nat × Nat)), i + fuel ≤ a.length → JwState a b d ps i →
      JwState a b d (jwGo a b d i fuel ps) (i + fuel) := by
  intro fuel
  induction fuel with
  | zero => intro i ps _ h; simpa using h
  | succ fuel ih =>
    intro i ps hle hst
    rw [jwGo_succ]
    cases hfind : jwFindJ (a.getD i ' ') b (ps.map Prod.snd) (jwLo d i) (jwHi b d i) with
    | some j =>
      have hrec := ih (i + 1) (ps ++ [(i, j)]) (by omega)
        (jwState_step_some a b d i ps hst (by omega) j hfind)
      rw [show i + (fuel + 1) = (i + 1) + fuel from by omega]
      exact hrec
    | none =>
      have hrec := ih (i + 1) ps (by omega) (jwState_step_none a b d i ps hst hfind)
      rw [show i + (fuel + 1) = (i + 1) + fuel from by omega]
      exact hrec

theorem jwPairs_state (a b : Str) (d : Int) : JwState a b d (jwPairs a b d) a.length := by
  have h0 : JwState a b d [] 0 := by
    refine ⟨?_, ?_, ?_, ?_, ?_⟩
    · intro p hp; exact absurd hp (List.not_mem_nil p)
    · simp
    · intro p hp; exact absurd hp (List.not_mem_nil p)
    · intro p hp; exact absurd hp (List.not_mem_nil p)
    · intro i hi; omega
  have := jwGo_state a b d a.length 0 [] (by omega) h0
  simpa [jwPairs] using this

/-- The full axiom set characterizing the greedy matching, symmetric
under transposition. -/
structure JwAx (a b : Str) (d : Int) (M : List (Nat × Nat)) : Prop where
  bounds : ∀ p ∈ M, p.1 < a.length ∧ p.2 < b.length ∧ jwLo d p.1 ≤ p.2 ∧
    p.2 < jwHi b d p.1 ∧ b.getD p.2 ' ' = a.getD p.1 ' '
  rowInj : ∀ i j j2, (i, j) ∈ M → (i, j2) ∈ M → j = j2
  colInj : ∀ i i2 j, (i, j) ∈ M → (i2, j) ∈ M → i = i2
  rowMin : ∀ i j j2, (i, j) ∈ M → jwLo d i ≤ j2 → j2 < jwHi b d i → j2 < j →
    b.getD j2 ' ' = a.getD i ' ' → ∃ i2, i2 < i ∧ (i2, j2) ∈ M
  rowSat : ∀ i, i < a.length → i ∉ M.map Prod.fst → ∀ j, jwLo d i ≤ j → j < jwHi b d i →
    b.getD j ' ' = a.getD i ' ' → ∃ i2, i2 < i ∧ (i2, j) ∈ M
  colMin : ∀ i j i2, (i, j) ∈ M → jwLo d j ≤ i2 → i2 < jwHi a d j → i2 < i →
    a.getD i2 ' ' = b.getD j ' ' → ∃ j2, j2 < j ∧ (i2, j2) ∈ M
  colSat : ∀ j, j < b.length → j ∉ M.map Prod.snd → ∀ i, jwLo d j ≤ i → i < jwHi a d j →
    a.getD i ' ' = b.getD j ' ' → ∃ j2, j2 < j ∧ (i, j2) ∈ M

theorem pairwise_fst_rowInj :
    ∀ M : List (Nat × Nat), List.Pairwise (fun p q : Nat × Nat => p.1 < q.1) M →
      ∀ i j j2, (i, j) ∈ M → (i, j2) ∈ M → j = j2 := by
  intro M
  induction M with
  | nil => intro _ i j j2 h; exact absurd h (List.not_mem_nil _)
  | cons p rest ih =>
    intro hpw i j j2 h1 h2
    have hd := (List.pairwise_cons.1 hpw).1
    have ht := (List.pairwise_cons.1 hpw).2
    rcases List.mem_cons.1 h1 with h1 | h1 <;> rcases List.mem_cons.1 h2 with h2 | h2
    · rw [← h1] at h2
      exact (Prod.ext_iff.1 h2).2.symm
    · have := hd (i, j2) h2
      rw [← h1] at this
      exact absurd this (Nat.lt_irrefl i)
    · have := hd (i, j) h1
      rw [← h2] at this
      exact absurd this (Nat.lt_irrefl i)
    · exact ih ht i j j2 h1 h2

theorem mem_map_fst_iff (M : List (Nat × Nat)) (i : Nat) :
    i ∈ M.map Prod.fst ↔ ∃ j, (i, j) ∈ M := by
  constructor
  · intro h
    obtain ⟨p, hp, he⟩ := List.mem_map.1 h
    refine ⟨p.2, ?_⟩
    have : p = (i, p.2) := by
      rw [← he]
    rw [← this]
    exact hp
  · intro ⟨j, hj⟩
    exact List.mem_map.2 ⟨(i, j), hj, rfl⟩

theorem mem_map_snd_iff (M : List (Nat × Nat)) (j : Nat) :
    j ∈ M.map Prod.snd ↔ ∃ i, (i, j) ∈ M := by
  constructor
  · intro h
    obtain ⟨p, hp, he⟩ := List.mem_map.1 h
    refine ⟨p.1, ?_⟩
    have : p = (p.1, j) := by
      rw [← he]
    rw [← this]
    exact hp
  · intro ⟨i, hi⟩
    exact List.mem_map.2 ⟨(i, j), hi, rfl⟩

/-- The greedy matching satisfies the full axiom set. -/
theorem jwPairs_ax (a b : Str) (d : Int) : JwAx a b d (jwPairs a b d) := by
  have hst := jwPairs_state a b d
  have hbounds : ∀ p ∈ jwPairs a b d, p.1 < a.length ∧ p.2 < b.length ∧
      jwLo d p.1 ≤ p.2 ∧ p.2 < jwHi b d p.1 ∧ b.getD p.2 ' ' = a.getD p.1 ' ' := by
    intro p hp
    have h0 := hst.bounds p hp
    exact ⟨h0.2.1, Nat.lt_of_lt_of_le h0.2.2.2.1 (jwHi_le b d p.1), h0.2.2.1,
      h0.2.2.2.1, h0.2.2.2.2⟩
  have hrowInj := pairwise_fst_rowInj _ hst.sorted
  have hcolInj : ∀ i i2 j, (i, j) ∈ jwPairs a b d → (i2, j) ∈ jwPairs a b d → i = i2 := by
    intro i i2 j h1 h2
    have := hst.colInj _ h1 _ h2 rfl
    exact (Prod.ext_iff.1 this).1
  have hrowMin : ∀ i j j2, (i, j) ∈ jwPairs a b d → jwLo d i ≤ j2 → j2 < jwHi b d i →
      j2 < j → b.getD j2 ' ' = a.getD i ' ' → ∃ i2, i2 < i ∧ (i2, j2) ∈ jwPairs a b d := by
    intro i j j2 hm h1 h2 h3 h4
    exact hst.rowMin (i, j) hm j2 h1 h2 h3 h4
  have hrowSat : ∀ i, i < a.length → i ∉ (jwPairs a b d).map Prod.fst →
      ∀ j, jwLo d i ≤ j → j < jwHi b d i → b.getD j ' ' = a.getD i ' ' →
      ∃ i2, i2 < i ∧ (i2, j) ∈ jwPairs a b d := by
    intro i hla hni j h1 h2 h3
    exact hst.rowSat i hla hni j h1 h2 h3
  refine ⟨hbounds, hrowInj, hcolInj, hrowMin, hrowSat, ?_, ?_⟩
  · -- colMin derived
    intro i j i2 hmem hlo hhi hlt hchar
    have hi2la : i2 < a.length := Nat.lt_of_lt_of_le hhi (jwHi_le a d j)
    have hjlb : j < b.length := (hbounds (i, j) hmem).2.1
    have hwin := (win_iff a b d i2 j hi2la hjlb).2 ⟨hlo, hhi⟩
    have hchar2 : b.getD j ' ' = a.getD i2 ' ' := hchar.symm
    by_cases hin : i2 ∈ (jwPairs a b d).map Prod.fst
    · obtain ⟨j3, hj3⟩ := (mem_map_fst_iff _ _).1 hin
      have hne : j3 ≠ j := by
        intro he
        subst he
        have := hcolInj i2 i j3 hj3 hmem
        omega
      rcases Nat.lt_or_ge j3 j with hlt3 | hge3
      · exact ⟨j3, hlt3, hj3⟩
      · have hgt3 : j < j3 := by omega
        obtain ⟨i3, hi3, hm3⟩ := hrowMin i2 j3 j hj3 hwin.1 hwin.2 hgt3 hchar2
        have := hcolInj i3 i j hm3 hmem
        omega
    · obtain ⟨i3, hi3, hm3⟩ := hrowSat i2 hi2la hin j hwin.1 hwin.2 hchar2
      have := hcolInj i3 i j hm3 hmem
      omega
  · -- colSat derived
    intro j hjlb hnotin i hlo hhi hchar
    have hila : i < a.length := Nat.lt_of_lt_of_le hhi (jwHi_le a d j)
    have hwin := (win_iff a b d i j hila hjlb).2 ⟨hlo, hhi⟩
    have hchar2 : b.getD j ' ' = a.getD i ' ' := hchar.symm
    by_cases hin : i ∈ (jwPairs a b d).map Prod.fst
    · obtain ⟨j3, hj3⟩ := (mem_map_fst_iff _ _).1 hin
      have hne : j3 ≠ j := by
        intro he
        subst he
        exact hnotin ((mem_map_snd_iff _ _).2 ⟨i, hj3⟩)
      rcases Nat.lt_or_ge j3 j with hlt3 | hge3
      · exact ⟨j3, hlt3, hj3⟩
      · have hgt3 : j < j3 := by omega
        obtain ⟨i3, _, hm3⟩ := hrowMin i j3 j hj3 hwin.1 hwin.2 hgt3 hchar2
        exact absurd ((mem_map_snd_iff _ _).2 ⟨i3, hm3⟩) hnotin
    · obtain ⟨i3, _, hm3⟩ := hrowSat i hila hin j hwin.1 hwin.2 hchar2
      exact absurd ((mem_map_snd_iff _ _).2 ⟨i3, hm3⟩) hnotin

theorem mem_swap (M : List (Nat × Nat)) (x y : Nat) :
    (x, y) ∈ M.map Prod.swap ↔ (y, x) ∈ M := by
  constructor
  · intro h
    obtain ⟨q, hq, he⟩ := List.mem_map.1 h
    have : q = (y, x) := by
      rw [← Prod.swap_swap q, he]
      rfl
    rw [← this]
    exact hq
  · intro h
    exact List.mem_map.2 ⟨(y, x), h, rfl⟩

theorem map_swap_fst (M : List (Nat × Nat)) :
    (M.map Prod.swap).map Prod.fst = M.map Prod.snd := by
  rw [List.map_map]
  rfl

theorem map_swap_snd (M : List (Nat × Nat)) :
    (M.map Prod.swap).map Prod.snd = M.map Prod.fst := by
  rw [List.map_map]
  rfl

/-- The axiom set is closed under transposition. -/
theorem JwAx_swap (a b : Str) (d : Int) (M : List (Nat × Nat)) (h : JwAx a b d M) :
    JwAx b a d (M.map Prod.swap) := by
  refine ⟨?_, ?_, ?_, ?_, ?_, ?_, ?_⟩
  · intro p hp
    obtain ⟨q, hq, he⟩ := List.mem_map.1 hp
    have hq2 : q = (p.2, p.1) := by
      rw [← Prod.swap_swap q, he]
      rfl
    subst hq2
    have h0 := h.bounds _ hq
    have hwin := (win_iff a b d p.2 p.1 h0.1 h0.2.1).1 ⟨h0.2.2.1, h0.2.2.2.1⟩
    exact ⟨h0.2.1, h0.1, hwin.1, hwin.2, h0.2.2.2.2.symm⟩
  · intro i j j2 h1 h2
    rw [mem_swap] at h1 h2
    exact h.colInj j j2 i h1 h2
  · intro i i2 j h1 h2
    rw [mem_swap] at h1 h2
    exact h.rowInj j i i2 h1 h2
  · intro r c c2 hm h1 h2 h3 h4
    rw [mem_swap] at hm
    obtain ⟨j2, hj2, hmem2⟩ := h.colMin c r c2 hm h1 h2 h3 h4
    exact ⟨j2, hj2, (mem_swap M j2 c2).2 hmem2⟩
  · intro r hrb hni c h1 h2 h3
    rw [map_swap_fst] at hni
    obtain ⟨j2, hj2, hmem2⟩ := h.colSat r hrb hni c h1 h2 h3
    exact ⟨j2, hj2, (mem_swap M j2 c).2 hmem2⟩
  · intro r c r2 hm h1 h2 h3 h4
    rw [mem_swap] at hm
    obtain ⟨i2, hi2, hmem2⟩ := h.rowMin c r r2 hm h1 h2 h3 h4
    exact ⟨i2, hi2, (mem_swap M r2 i2).2 hmem2⟩
  · intro c hcb hni r h1 h2 h3
    rw [map_swap_snd] at hni
    obtain ⟨i2, hi2, hmem2⟩ := h.rowSat c hcb hni r h1 h2 h3
    exact ⟨i2, hi2, (mem_swap M r i2).2 hmem2⟩

/-- The axiom set determines the matching up to membership. -/
theorem jwAx_unique (a b : Str) (d : Int) (S T : List (Nat × Nat))
    (hS : JwAx a b d S) (hT : JwAx a b d T) : ∀ i j, ((i, j) ∈ S ↔ (i, j) ∈ T) := by
  suffices key : ∀ (S T : List (Nat × Nat)), JwAx a b d S → JwAx a b d T →
      ∀ i, (∀ i2, i2 < i → ∀ j, ((i2, j) ∈ S ↔ (i2, j) ∈ T)) →
      ∀ j, (i, j) ∈ S → (i, j) ∈ T by
    intro i
    induction i using Nat.strong_induction_on with
    | _ i ihst =>
      intro j
      constructor
      · exact key S T hS hT i (fun i2 h2 => ihst i2 h2) j
      · exact key T S hT hS i (fun i2 h2 j2 => (ihst i2 h2 j2).symm) j
  intro S T hS hT i IH j hmem
  have hb := hS.bounds (i, j) hmem
  have hinT : i ∈ T.map Prod.fst := by
    by_contra hni
    obtain ⟨i2, hi2, hmem2⟩ := hT.rowSat i hb.1 hni j hb.2.2.1 hb.2.2.2.1 hb.2.2.2.2
    have hmem2S : (i2, j) ∈ S := (IH i2 hi2 j).2 hmem2
    have := hS.colInj i2 i j hmem2S hmem
    omega
  obtain ⟨j2, hj2⟩ := (mem_map_fst_iff T i).1 hinT
  rcases Nat.lt_trichotomy j2 j with hlt | heq | hgt
  · have hbT := hT.bounds (i, j2) hj2
    obtain ⟨i3, hi3, hm3⟩ := hS.rowMin i j j2 hmem hbT.2.2.1 hbT.2.2.2.1 hlt hbT.2.2.2.2
    have hm3T : (i3, j2) ∈ T := (IH i3 hi3 j2).1 hm3
    have := hT.colInj i3 i j2 hm3T hj2
    omega
  · rw [← heq]
    exact hj2
  · obtain ⟨i3, hi3, hm3⟩ := hT.rowMin i j2 j hj2 hb.2.2.1 hb.2.2.2.1 hgt hb.2.2.2.2
    have hm3S : (i3, j) ∈ S := (IH i3 hi3 j).2 hm3
    have := hS.colInj i3 i j hm3S hmem
    omega

/-- Transposition law for the greedy matching. -/
theorem jwPairs_mem_swap (a b : Str) (d : Int) (i j : Nat) :
    (i, j) ∈ jwPairs a b d ↔ (j, i) ∈ jwPairs b a d := by
  have h1 := jwPairs_ax a b d
  have h2 := JwAx_swap b a d _ (jwPairs_ax b a d)
  rw [jwAx_unique a b d _ _ h1 h2 i j, mem_swap]

theorem jwPairs_nodup (a b : Str) (d : Int) : (jwPairs a b d).Nodup := by
  have hs := (jwPairs_state a b d).sorted
  exact hs.imp (fun hlt heq => by
    rw [heq] at hlt
    exact Nat.lt_irrefl _ hlt)

theorem jwPairs_length_comm (a b : Str) (d : Int) :
    (jwPairs a b d).length = (jwPairs b a d).length := by
  have hnd1 := jwPairs_nodup a b d
  have hnd2 : ((jwPairs b a d).map Prod.swap).Nodup :=
    (jwPairs_nodup b a d).map Prod.swap_injective
  have hfin : (jwPairs a b d).toFinset = ((jwPairs b a d).map Prod.swap).toFinset := by
    apply Finset.ext
    intro p
    simp only [List.mem_toFinset]
    cases p with
    | mk i j =>
      rw [mem_swap]
      exact jwPairs_mem_swap a b d i j
  have h1 := List.toFinset_card_of_nodup hnd1
  have h2 := List.toFinset_card_of_nodup hnd2
  rw [← h1, hfin, h2, List.length_map]

theorem filterMap_congr_mem {α β : Type} (f g : α → Option β) :
    ∀ l : List α, (∀ x ∈ l, f x = g x) → l.filterMap f = l.filterMap g := by
  intro l
  induction l with
  | nil => intro _; rfl
  | cons x xs ih =>
    intro h
    rw [List.filterMap_cons, List.filterMap_cons, h x (by simp),
      ih (fun y hy => h y (by simp [hy]))]

theorem matched_fst_eq (a b : Str) (d : Int) :
    ((List.range b.length).filterMap (fun j =>
      if ((jwPairs b a d).map Prod.fst).contains j then some (b.getD j ' ') else none)) =
    ((List.range b.length).filterMap (fun j =>
      if ((jwPairs a b d).map Prod.snd).contains j then some (b.getD j ' ') else none)) := by
  apply filterMap_congr_mem
  intro j _
  have hc : ((jwPairs b a d).map Prod.fst).contains j =
      ((jwPairs a b d).map Prod.snd).contains j := by
    rw [Bool.eq_iff_iff, list_contains_iff, list_contains_iff, mem_map_fst_iff,
      mem_map_snd_iff]
    constructor
    · rintro ⟨i, hi⟩
      exact ⟨i, (jwPairs_mem_swap a b d i j).2 hi⟩
    · rintro ⟨i, hi⟩
      exact ⟨i, (jwPairs_mem_swap a b d i j).1 hi⟩
  rw [hc]

theorem matched_snd_eq (a b : Str) (d : Int) :
    ((List.range a.length).filterMap (fun i =>
      if ((jwPairs b a d).map Prod.snd).contains i then some (a.getD i ' ') else none)) =
    ((List.range a.length).filterMap (fun i =>
      if ((jwPairs a b d).map Prod.fst).contains i then some (a.getD i ' ') else none)) := by
  apply filterMap_congr_mem
  intro i _
  have hc : ((jwPairs b a d).map Prod.snd).contains i =
      ((jwPairs a b d).map Prod.fst).contains i := by
    rw [Bool.eq_iff_iff, list_contains_iff, list_contains_iff, mem_map_fst_iff,
      mem_map_snd_iff]
    constructor
    · rintro ⟨j, hj⟩
      exact ⟨j, (jwPairs_mem_swap a b d i j).2 hj⟩
    · rintro ⟨j, hj⟩
      exact ⟨j, (jwPairs_mem_swap a b d i j).1 hj⟩
  rw [hc]

theorem countP_zip_ne_comm : ∀ U V : List Char,
    (U.zip V).countP (fun p => p.1 ≠ p.2) = (V.zip U).countP (fun p => p.1 ≠ p.2) := by
  intro U
  induction U with
  | nil => intro V; simp
  | cons u us ih =>
    intro V
    cases V with
    | nil => simp
    | cons v vs =>
      rw [List.zip_cons_cons, List.zip_cons_cons, List.countP_cons, List.countP_cons, ih vs]
      have : (decide ¬u = v) = (decide ¬v = u) := decide_eq_decide.2 ne_comm
      rw [this]

theorem commonPrefixLen_comm : ∀ s t : Str, commonPrefixLen s t = commonPrefixLen t s := by
  intro s
  induction s with
  | nil => intro t; cases t <;> rfl
  | cons a as ih =>
    intro t
    cases t with
    | nil => rfl
    | cons b bs =>
      show (if a = b then commonPrefixLen as bs + 1 else 0) =
        (if b = a then commonPrefixLen bs as + 1 else 0)
      by_cases h : a = b
      · rw [if_pos h, if_pos h.symm, ih bs]
      · rw [if_neg h, if_neg (fun he => h he.symm)]

/-- Symmetry of Jaro-Winkler. -/
theorem jaroWinkler_comm (s1 s2 : Str) : jaroWinkler s1 s2 = jaroWinkler s2 s1 := by
  unfold jaroWinkler
  by_cases he : (s1.isEmpty || s2.isEmpty) = true
  · have he2 : (s2.isEmpty || s1.isEmpty) = true := by
      rw [Bool.or_comm] at he
      exact he
    rw [if_pos he, if_pos he2]
  · have he2 : ¬(s2.isEmpty || s1.isEmpty) = true := by
      rw [Bool.or_comm] at he
      exact he
    rw [if_neg he, if_neg he2]
    dsimp only
    rw [max_comm s2.length s1.length]
    rw [← jwPairs_length_comm s1 s2 (Int.ofNat (max s1.length s2.length / 2) - 1)]
    by_cases hm0 : (jwPairs s1 s2 (Int.ofNat (max s1.length s2.length / 2) - 1)).length = 0
    · rw [if_pos hm0, if_pos hm0]
    · rw [if_neg hm0, if_neg hm0]
      rw [matched_fst_eq s1 s2, matched_snd_eq s1 s2]
      rw [countP_zip_ne_comm]
      rw [commonPrefixLen_comm (s2.take 4) (s1.take 4)]
      ring

theorem dedupSeen_nodup {α : Type} [DecidableEq α] :
    ∀ (l seen : List α), (dedupSeen seen l).Nodup := by
  intro l
  induction l with
  | nil => intro seen; simp [dedupSeen]
  | cons x xs ih =>
    intro seen
    rw [dedupSeen_cons]
    by_cases h : seen.contains x = true
    · rw [if_pos h]
      exact ih seen
    · rw [if_neg h]
      rw [List.nodup_cons]
      refine ⟨?_, ih (seen ++ [x])⟩
      intro hc
      have := (mem_dedupSeen x xs (seen ++ [x])).1 hc
      exact this.2 (by simp)

theorem dedupKeepFirst_nodup {α : Type} [DecidableEq α] (l : List α) :
    (dedupKeepFirst l).Nodup := dedupSeen_nodup l []

theorem contains_iff_mem_lawful {α : Type} [BEq α] [LawfulBEq α] (l : List α) (a : α) :
    l.contains a = true ↔ a ∈ l := by
  simp

theorem countP_mem_comm {α : Type} [DecidableEq α] [BEq α] [LawfulBEq α] (A B : List α)
    (hA : A.Nodup) (hB : B.Nodup) :
    A.countP (fun x => B.contains x) = B.countP (fun x => A.contains x) := by
  rw [List.countP_eq_length_filter, List.countP_eq_length_filter,
    ← List.toFinset_card_of_nodup (hA.filter _), ← List.toFinset_card_of_nodup (hB.filter _)]
  congr 1
  apply Finset.ext
  intro x
  simp only [List.mem_toFinset, List.mem_filter, contains_iff_mem_lawful]
  tauto

theorem dedup_append_length_comm {α : Type} [DecidableEq α] (A B : List α) :
    (dedupKeepFirst (A ++ B)).length = (dedupKeepFirst (B ++ A)).length := by
  rw [← List.toFinset_card_of_nodup (dedupKeepFirst_nodup (A ++ B)),
    ← List.toFinset_card_of_nodup (dedupKeepFirst_nodup (B ++ A))]
  congr 1
  apply Finset.ext
  intro x
  simp only [List.mem_toFinset, mem_dedupKeepFirst, List.mem_append]
  tauto

theorem tokenJaccard_comm (A B : List Str) : tokenJaccard A B = tokenJaccard B A := by
  unfold tokenJaccard
  by_cases he : (A.isEmpty && B.isEmpty) = true
  · have he2 : (B.isEmpty && A.isEmpty) = true := by
      rw [Bool.and_comm] at he
      exact he
    rw [if_pos he, if_pos he2]
  · have he2 : ¬(B.isEmpty && A.isEmpty) = true := by
      rw [Bool.and_comm] at he
      exact he
    rw [if_neg he, if_neg he2]
    dsimp only
    rw [countP_mem_comm (dedupKeepFirst A) (dedupKeepFirst B)
      (dedupKeepFirst_nodup A) (dedupKeepFirst_nodup B)]
    rw [dedup_append_length_comm (dedupKeepFirst A) (dedupKeepFirst B)]

theorem nameOrderFreeScore_comm (x y : Str) :
    nameOrderFreeScore x y = nameOrderFreeScore y x := by
  unfold nameOrderFreeScore
  by_cases he : ((tokens x).isEmpty || (tokens y).isEmpty) = true
  · have he2 : ((tokens y).isEmpty || (tokens x).isEmpty) = true := by
      rw [Bool.or_comm] at he
      exact he
    rw [if_pos he, if_pos he2]
  · have he2 : ¬((tokens y).isEmpty || (tokens x).isEmpty) = true := by
      rw [Bool.or_comm] at he
      exact he
    rw [if_neg he, if_neg he2]
    dsimp only
    rw [countP_mem_comm (dedupKeepFirst (tokens x)) (dedupKeepFirst (tokens y))
      (dedupKeepFirst_nodup (tokens x)) (dedupKeepFirst_nodup (tokens y))]
    rw [dedup_append_length_comm (dedupKeepFirst (tokens x)) (dedupKeepFirst (tokens y))]
    rw [jaroWinkler_comm (joinSp (sortStrs (tokens x))) (joinSp (sortStrs (tokens y)))]

set_option maxHeartbeats 2000000 in
theorem applyAdditionalRules_comm (a b : LocalRec) (o : Opts) :
    applyAdditionalRules a b o = applyAdditionalRules b a o := by
  unfold applyAdditionalRules
  try dsimp only
  refine if_congr ?_ rfl (if_congr ?_ rfl (if_congr ?_ rfl (if_congr ?_ rfl
    (if_congr ?_ rfl (if_congr ?_ rfl (if_congr ?_ rfl rfl))))))
  · rw [countP_mem_comm (dedupKeepFirst (splitParts b.womanName_normalized))
      (dedupKeepFirst (splitParts a.womanName_normalized))
      (dedupKeepFirst_nodup _) (dedupKeepFirst_nodup _),
      dedup_append_length_comm (dedupKeepFirst (splitParts b.womanName_normalized))
      (dedupKeepFirst (splitParts a.womanName_normalized))]
  · rw [jaroWinkler_comm (getPart (splitParts b.womanName_normalized) 0)
        (getPart (splitParts a.womanName_normalized) 0),
      jaroWinkler_comm b.husbandName_normalized a.husbandName_normalized,
      nameOrderFreeScore_comm b.husbandName_normalized a.husbandName_normalized,
      tokenJaccard_comm b.children_normalized a.children_normalized]
    tauto
  · rw [jaroWinkler_comm (getPart (splitParts b.womanName_normalized) 0)
        (getPart (splitParts a.womanName_normalized) 0),
      jaroWinkler_comm (getPart (splitParts b.womanName_normalized) 1)
        (getPart (splitParts a.womanName_normalized) 1),
      jaroWinkler_comm (getPart (splitParts b.womanName_normalized) 2)
        (getPart (splitParts a.womanName_normalized) 2),
      jaroWinkler_comm (getPart (splitParts b.womanName_normalized) 3)
        (getPart (splitParts a.womanName_normalized) 3),
      jaroWinkler_comm (getPart (splitParts b.husbandName_normalized) 0)
        (getPart (splitParts a.husbandName_normalized) 0)]
  · rw [jaroWinkler_comm (getPart (splitParts b.womanName_normalized) 0)
        (getPart (splitParts a.womanName_normalized) 0),
      jaroWinkler_comm (getPart (splitParts b.womanName_normalized) 1)
        (getPart (splitParts a.womanName_normalized) 1),
      jaroWinkler_comm (getPart (splitParts b.womanName_normalized) 2)
        (getPart (splitParts a.womanName_normalized) 2),
      jaroWinkler_comm (getPart (splitParts b.womanName_normalized) 3)
        (getPart (splitParts a.womanName_normalized) 3),
      jaroWinkler_comm (getPart (splitParts b.husbandName_normalized) 0)
        (getPart (splitParts a.husbandName_normalized) 0)]
  · rw [jaroWinkler_comm (getPart (splitParts b.womanName_normalized) 0)
        (getPart (splitParts a.womanName_normalized) 0),
      jaroWinkler_comm (getPart (splitParts b.womanName_normalized) 1)
        (getPart (splitParts a.womanName_normalized) 1),
      jaroWinkler_comm (getPart (splitParts b.womanName_normalized) 2)
        (getPart (splitParts a.womanName_normalized) 2),
      jaroWinkler_comm (getPart (splitParts b.womanName_normalized) 3)
        (getPart (splitParts a.womanName_normalized) 3),
      jaroWinkler_comm (getPart (splitParts b.husbandName_normalized) 0)
        (getPart (splitParts a.husbandName_normalized) 0)]
    tauto
  · rw [jaroWinkler_comm (getPart (splitParts b.womanName_normalized) 0)
        (getPart (splitParts a.womanName_normalized) 0),
      jaroWinkler_comm (getPart (splitParts b.womanName_normalized) 1)
        (getPart (splitParts a.womanName_normalized) 1),
      jaroWinkler_comm (getPart (splitParts b.womanName_normalized) 2)
        (getPart (splitParts a.womanName_normalized) 2),
      jaroWinkler_comm (getPart (splitParts b.womanName_normalized) 3)
        (getPart (splitParts a.womanName_normalized) 3),
      jaroWinkler_comm (getPart (splitParts b.husbandName_normalized) 0)
        (getPart (splitParts a.husbandName_normalized) 0)]
    tauto
  · rw [jaroWinkler_comm (getPart (splitParts b.womanName_normalized) 0)
        (getPart (splitParts a.womanName_normalized) 0),
      jaroWinkler_comm (getPart (splitParts b.womanName_normalized) 1)
        (getPart (splitParts a.womanName_normalized) 1),
      jaroWinkler_comm (getPart (splitParts b.womanName_normalized) 2)
        (getPart (splitParts a.womanName_normalized) 2),
      jaroWinkler_comm (getPart (splitParts b.womanName_normalized)
          ((splitParts b.womanName_normalized).length - 1))
        (getPart (splitParts a.womanName_normalized)
          ((splitParts a.womanName_normalized).length - 1)),
      jaroWinkler_comm (getPart (splitParts b.husbandName_normalized) 0)
        (getPart (splitParts a.husbandName_normalized) 0),
      jaroWinkler_comm (getPart (splitParts b.husbandName_normalized) 1)
        (getPart (splitParts a.husbandName_normalized) 1),
      jaroWinkler_comm (getPart (splitParts b.husbandName_normalized) 2)
        (getPart (splitParts a.husbandName_normalized) 2),
      jaroWinkler_comm (getPart (splitParts b.husbandName_normalized)
          ((splitParts b.husbandName_normalized).length - 1))
        (getPart (splitParts a.husbandName_normalized)
          ((splitParts a.husbandName_normalized).length - 1))]
    tauto

theorem phone_sym (x y : Str) :
    (if ¬x.isEmpty ∧ ¬y.isEmpty then
       if x = y then (1 : ℚ)
       else if lastN 6 x = lastN 6 y then 85 / 100
       else if lastN 4 x = lastN 4 y then 6 / 10
       else 0
     else 0) =
    (if ¬y.isEmpty ∧ ¬x.isEmpty then
       if y = x then (1 : ℚ)
       else if lastN 6 y = lastN 6 x then 85 / 100
       else if lastN 4 y = lastN 4 x then 6 / 10
       else 0
     else 0) :=
  if_congr and_comm
    (if_congr eq_comm rfl (if_congr eq_comm rfl (if_congr eq_comm rfl rfl))) rfl

theorem id_sym (x y : Str) :
    (if ¬x.isEmpty ∧ ¬y.isEmpty then
       if x = y then (1 : ℚ)
       else if lastN 5 x = lastN 5 y then 75 / 100
       else 0
     else 0) =
    (if ¬y.isEmpty ∧ ¬x.isEmpty then
       if y = x then (1 : ℚ)
       else if lastN 5 y = lastN 5 x then 75 / 100
       else 0
     else 0) :=
  if_congr and_comm (if_congr eq_comm rfl (if_congr eq_comm rfl rfl)) rfl

theorem loc0_sym (x y : Str) :
    (if ¬x.isEmpty ∧ ¬y.isEmpty ∧ x = y then (4 / 10 : ℚ) else 0) =
    (if ¬y.isEmpty ∧ ¬x.isEmpty ∧ y = x then (4 / 10 : ℚ) else 0) :=
  if_congr ⟨fun ⟨h1, h2, h3⟩ => ⟨h2, h1, h3.symm⟩, fun ⟨h1, h2, h3⟩ => ⟨h2, h1, h3.symm⟩⟩
    rfl rfl

theorem locsub_sym (x y : Option Str) :
    (if truthyOpt x ∧ truthyOpt y ∧ x = y then (25 / 100 : ℚ) else 0) =
    (if truthyOpt y ∧ truthyOpt x ∧ y = x then (25 / 100 : ℚ) else 0) :=
  if_congr ⟨fun ⟨h1, h2, h3⟩ => ⟨h2, h1, h3.symm⟩, fun ⟨h1, h2, h3⟩ => ⟨h2, h1, h3.symm⟩⟩
    rfl rfl

theorem adv_sym (x y : Str) :
    (if x.isEmpty ∨ y.isEmpty then (0 : ℚ) else min (1 / 2) (jaroWinkler x y)) =
    (if y.isEmpty ∨ x.isEmpty then (0 : ℚ) else min (1 / 2) (jaroWinkler y x)) :=
  if_congr or_comm rfl (by rw [jaroWinkler_comm x y])

set_option maxHeartbeats 2000000 in
/-- Symmetry of the scorer on local records. -/
theorem pairwiseScoreLocal_comm (a b : LocalRec) (o : Opts) :
    pairwiseScoreLocal a b o = pairwiseScoreLocal b a o := by
  unfold pairwiseScoreLocal
  try dsimp only
  refine if_congr ?_ rfl ?_
  · constructor
    · rintro ⟨h1, h2, h3⟩
      exact ⟨h2, h1, h3.symm⟩
    · rintro ⟨h1, h2, h3⟩
      exact ⟨h2, h1, h3.symm⟩
  · refine if_congr ?_ rfl ?_
    · rw [jaroWinkler_comm b.husbandName_normalized a.husbandName_normalized,
        jaroWinkler_comm (getPart (splitParts b.womanName_normalized) 1)
          (getPart (splitParts a.womanName_normalized) 1),
        jaroWinkler_comm (getPart (splitParts b.womanName_normalized) 2)
          (getPart (splitParts a.womanName_normalized) 2)]
    · rw [← applyAdditionalRules_comm a b o]
      cases happ : applyAdditionalRules a b o with
      | some pr => rfl
      | none =>
        rw [jaroWinkler_comm (getPart (splitParts b.womanName_normalized) 0)
            (getPart (splitParts a.womanName_normalized) 0),
          jaroWinkler_comm (joinSp ((splitParts b.womanName_normalized).drop 1))
            (joinSp ((splitParts a.womanName_normalized).drop 1)),
          adv_sym (joinSp ((splitParts b.womanName_normalized).map (fun t => t.take 3)))
            (joinSp ((splitParts a.womanName_normalized).map (fun t => t.take 3))),
          nameOrderFreeScore_comm b.womanName_normalized a.womanName_normalized,
          jaroWinkler_comm b.husbandName_normalized a.husbandName_normalized,
          nameOrderFreeScore_comm b.husbandName_normalized a.husbandName_normalized,
          phone_sym b.phone a.phone,
          id_sym b.nationalId a.nationalId,
          tokenJaccard_comm b.children_normalized a.children_normalized,
          loc0_sym b.village_normalized a.village_normalized,
          locsub_sym b.subdistrict_normalized a.subdistrict_normalized]

set_option maxRecDepth 100000 in
/-- Witness for C2 on a concrete run producing one three-record cluster. -/
theorem c2_witness :
    (runClustering demoTieOrder defaultOpts).clusters.getD 0
        { records := [], reasons := [], pairScores := [] } ∈
      (runClustering demoTieOrder defaultOpts).clusters ∧
    (2 ≤ ((runClustering demoTieOrder defaultOpts).clusters.getD 0
        { records := [], reasons := [], pairScores := [] }).records.length ∧
      ((runClustering demoTieOrder defaultOpts).clusters.getD 0
        { records := [], reasons := [], pairScores := [] }).records.length ≤ 4) :=
  ⟨by with_unfolding_all decide,
    c2_cluster_size_bounds demoTieOrder defaultOpts _ (by with_unfolding_all decide)⟩

/-- C6: the pairwise scorer is symmetric: swapping the two records leaves
the score, the breakdown and the reasons unchanged, for every
configuration. -/
theorem c6_pairwise_scorer_symmetric (a b : RawRecord) (o : Opts) :
    pairwiseScore a b o = pairwiseScore b a o := by
  unfold pairwiseScore
  exact pairwiseScoreLocal_comm (localize a) (localize b) o

end BeneficiaryInsight
